import Mathlib

/-!
Verification of the `qyu` asynchronous job queue (src/qyu.js, src/RateLimiter.js).

The two source classes are shallowly embedded:

* `RL` holds the mutable fields of `RateLimiter`; its methods become
  state-passing functions (`canRunMoreM`, `toggleRL`, `jobStartedRL`,
  `jobEndedRL`).  Timestamps are integers (ms); `new Date()` subtraction in JS
  becomes integer subtraction, and the current time becomes an explicit `now`
  argument (the JS code captures `new Date()` at call time).
* `QyuState` holds the mutable fields of `Qyu` plus the module-global
  `nextJobId` counter, the implicit set of in-flight job callbacks, the
  pending `waitForDrain` resolvers of `pause()`, and a logical clock.
* Each public operation becomes a function from state to state plus the list
  of emitted events.  The synchronous `_processJobs()` do/while loop is
  modelled as consecutive `dispatch` steps of the small-step relation `QStep`
  (each iteration of the loop re-checks `_readyToRunJobs`, exactly as a
  `dispatch` step does), and promise callbacks / `process.nextTick`
  continuations are modelled as separately scheduled `complete` steps, so the
  relation admits every interleaving the event loop can produce.
-/

/-- A pending job entry as stored in `this.jobs` by `Qyu.push`:
its unique id (from the global `nextJobId` counter) and its priority
(`opts.priority`, default 10).  The job body is opaque; its outcome is chosen
at completion time. -/
structure Job where
  id : Nat
  priority : Int
  deriving DecidableEq, Repr

/-- Constructor options of `Qyu`/`RateLimiter`: `rateLimit` is `null` (serial
mode, `none`) or a number of jobs per second. -/
structure QyuOpts where
  rateLimit : Option Nat
  deriving DecidableEq, Repr

/-- The mutable fields of `RateLimiter`: `running`, `recentJobs` (end dates of
jobs ended at most one second ago), `processedJobs`, and whether the stats
interval is armed (`this.statsInterval !== null`).  `running` is an integer
because JS `--this.running` is not truncated at zero. -/
structure RL where
  running : Int
  recentJobs : List Int
  processedJobs : Nat
  statsArmed : Bool
  deriving DecidableEq, Repr

/-- Embeds `RateLimiter._cleanRecentJobs()`: the end dates of jobs that ended at most
`ONE_SECOND = 1000` ms ago (`now - endDate <= ONE_SECOND`); returns a filtered
copy, without mutating `recentJobs`. -/
def cleanRecentJobs (rl : RL) (now : Int) : List Int :=
  rl.recentJobs.filter (fun endDate => decide (now - endDate ≤ 1000))

/-- Embeds `RateLimiter._appendEndedJob()`: stores the cleaned list with `now`
appended back into `recentJobs`. -/
def appendEndedJob (rl : RL) (now : Int) : RL :=
  { rl with recentJobs := cleanRecentJobs rl now ++ [now] }

/-- Embeds `RateLimiter.canRunMore()`, state-passing: returns the admission decision
together with the (unchanged) limiter state.  Serial mode (`rateLimit ===
null`): `running === 0`.  Otherwise: `running + nbJobsEndedDuringLastSecond <
rateLimit`. -/
def canRunMoreM (opts : QyuOpts) (rl : RL) (now : Int) : Bool × RL :=
  match opts.rateLimit with
  | none => (rl.running == 0, rl)
  | some n => (decide (rl.running + ((cleanRecentJobs rl now).length : Int) < (n : Int)), rl)

/-- The admission decision of `RateLimiter.canRunMore()`. -/
def canRunMore (opts : QyuOpts) (rl : RL) (now : Int) : Bool :=
  (canRunMoreM opts rl now).1

/-- Embeds `RateLimiter.toggle(enable)`: early-returns when `!!enable ===
!!this.statsInterval`; arming resets `processedJobs` to 0 and starts the
interval; disarming clears it. -/
def toggleRL (rl : RL) (enable : Bool) : RL :=
  if enable == rl.statsArmed then rl
  else if enable then { rl with statsArmed := true, processedJobs := 0 }
  else { rl with statsArmed := false }

/-- Embeds `RateLimiter.jobStarted()`: increments `running` and `processedJobs`. -/
def jobStartedRL (rl : RL) : RL :=
  { rl with running := rl.running + 1, processedJobs := rl.processedJobs + 1 }

/-- The state mutation of `RateLimiter.jobEnded()`: decrements `running` and
runs `_appendEndedJob()`.  (The `drain`/`avail` emissions it schedules are
handled in `jobEnded` below and by the `dispatch` steps of `QStep`.) -/
def jobEndedRL (rl : RL) (now : Int) : RL :=
  appendEndedJob { rl with running := rl.running - 1 } now

/-- The observable events of the queue: the `done`, `error` and `drain`
emissions of `Qyu`, the resolution of a `push` promise with `{jobId,
jobResult}`, the resolution of a `pause()` promise, and (as a bookkeeping
mark) the dispatch of a job (`rateLimiter.jobStarted()` + launch of the job
body in `_processJob`).  Job results and error values are opaque; they are
represented by naturals. -/
inductive Ev where
  | dispatched (id : Nat)
  | done (id : Nat) (result : Nat)
  | error (id : Nat) (err : Nat)
  | resolve (id : Nat) (result : Nat)
  | drain
  | pauseResolved
  deriving DecidableEq, Repr

/-- The state of a `Qyu` instance: the pending `this.jobs` array, `started`,
the module-global `nextJobId` counter, the ids of dispatched jobs whose
completion callback has not yet run (`inflight`), the owned `RateLimiter`
state, the number of unresolved `pause()` promises waiting on the limiter's
internal drain signal, and the logical clock. -/
structure QyuState where
  jobs : List Job
  started : Bool
  nextId : Nat
  inflight : List Nat
  rl : RL
  pauseWaiters : Nat
  now : Int
  deriving DecidableEq, Repr

/-- The state of a freshly constructed queue (constructor of `Qyu` and
`RateLimiter`). -/
def initState : QyuState :=
  { jobs := [], started := false, nextId := 0, inflight := [],
    rl := { running := 0, recentJobs := [], processedJobs := 0, statsArmed := false },
    pauseWaiters := 0, now := 0 }

/-- Embeds `Math.min.apply(Math, this.jobs.map(job => job.opts.priority))`: the
minimum priority present in a non-empty pending array.  (In `_processJob` it
is only evaluated when `this.jobs.length` is non-zero; the value on `[]` is
irrelevant.) -/
def minPrio : List Job → Int
  | [] => 0
  | j :: r =>
    match r with
    | [] => j.priority
    | _ :: _ => min j.priority (minPrio r)

/-- Embeds `this.jobs.find(job => job.opts.priority === priority)` with `priority`
the minimum: the first pending job holding the minimum priority. -/
def selectJob (l : List Job) : Option Job :=
  l.find? (fun j => j.priority == minPrio l)

/-- Embeds `this.jobs = this.jobs.filter(j => j.id !== job.id)`: removal of the
selected job from the pending array. -/
def removeJob (l : List Job) (j : Job) : List Job :=
  l.filter (fun x => x.id != j.id)

/-- Embeds `Qyu._readyToRunJobs()`: `this.started && this.jobs.length &&
this.rateLimiter.canRunMore()`. -/
def readyToRunJobs (opts : QyuOpts) (s : QyuState) : Bool :=
  s.started && !s.jobs.isEmpty && canRunMore opts s.rl s.now

/-- Embeds `Qyu._processJob()`: when `_readyToRunJobs()` holds, select the pending
job of minimum priority (first pushed wins ties), remove it from `this.jobs`,
call `rateLimiter.jobStarted()` and launch its body (recorded in `inflight`);
otherwise do nothing. -/
def processJob (opts : QyuOpts) (s : QyuState) : QyuState × List Ev :=
  if readyToRunJobs opts s then
    match selectJob s.jobs with
    | some j =>
      ({ s with jobs := removeJob s.jobs j,
                inflight := s.inflight ++ [j.id],
                rl := jobStartedRL s.rl }, [Ev.dispatched j.id])
    | none => (s, [])
  else (s, [])

/-- Embeds `Qyu._drainIfNoMore()`: when `this.jobs` is empty and
`rateLimiter.running` is zero, emit `drain` and `toggle(false)`. -/
def drainIfNoMore (s : QyuState) : QyuState × List Ev :=
  if s.jobs.isEmpty && s.rl.running == 0 then
    ({ s with rl := toggleRL s.rl false }, [Ev.drain])
  else (s, [])

/-- Events emitted synchronously by `Qyu._jobEnded` for one completion: on
error, `error {jobId, error}` and nothing else — the push promise is left
unresolved (the `reject` call is commented out in the source); on success,
`done {jobId, jobResult}` followed by the resolution of the push promise. -/
def complEvs (id : Nat) : Except Nat Nat → List Ev
  | Except.error e => [Ev.error id e]
  | Except.ok v => [Ev.done id v, Ev.resolve id v]

/-- Embedding of `Qyu._jobEnded(job, withError, jobResultOrError)` together
with the `process.nextTick` drain signal of `RateLimiter.jobEnded()`: call
`rateLimiter.jobEnded()`; emit the completion events (`complEvs`); then run
`_drainIfNoMore()`; finally, if `running` reached zero, the limiter's internal
`drain` signal resolves every pending `waitForDrain()` promise of `pause()`,
each of which then calls `toggle(false)`.  (The trailing `_processJobs()` call
is modelled by subsequent `dispatch` steps.) -/
def jobEnded (s : QyuState) (id : Nat) (outcome : Except Nat Nat) : QyuState × List Ev :=
  let s1 : QyuState := { s with rl := jobEndedRL s.rl s.now, inflight := s.inflight.erase id }
  let p := drainIfNoMore s1
  if p.1.rl.running == 0 && p.1.pauseWaiters != 0 then
    ({ p.1 with pauseWaiters := 0, rl := toggleRL p.1.rl false },
      complEvs id outcome ++ p.2 ++ List.replicate p.1.pauseWaiters Ev.pauseResolved)
  else (p.1, complEvs id outcome ++ p.2)

/-- Embeds `Qyu.push(job, opts)`: append `{id: nextJobId++, job, opts:
Object.assign({}, DEFAULT_JOB_OPTIONS, opts), pushPromise}` to `this.jobs`
(priority defaults to `LOWEST_PRIO = 10`, and is stored unvalidated); when
`started`, `rateLimiter.toggle(true)`.  (The trailing `_processJobs()` is
modelled by subsequent `dispatch` steps.) -/
def pushFn (s : QyuState) (prio : Option Int) : QyuState :=
  let s1 : QyuState :=
    { s with jobs := s.jobs ++ [{ id := s.nextId, priority := prio.getD 10 }],
             nextId := s.nextId + 1 }
  if s.started then { s1 with rl := toggleRL s1.rl true } else s1

/-- Embeds `Qyu.pause()`: set `started = false`; `rateLimiter.waitForDrain()`
resolves at once when `running === 0` (and then runs `toggle(false)`),
otherwise it subscribes to the limiter's next internal drain signal. -/
def pauseFn (s : QyuState) : QyuState × List Ev :=
  let s1 : QyuState := { s with started := false }
  if s.rl.running == 0 then ({ s1 with rl := toggleRL s1.rl false }, [Ev.pauseResolved])
  else ({ s1 with pauseWaiters := s1.pauseWaiters + 1 }, [])

/-- Embeds `Qyu.start()`: set `started = true`, `rateLimiter.toggle(true)`, run
`_drainIfNoMore()`; the returned promise resolves synchronously.  (The
trailing `_processJobs()` is modelled by subsequent `dispatch` steps.) -/
def startFn (s : QyuState) : QyuState × List Ev :=
  let s1 : QyuState := { s with started := true }
  let s2 : QyuState := { s1 with rl := toggleRL s1.rl true }
  drainIfNoMore s2

/-- Passage of time on the logical clock. -/
def tickFn (s : QyuState) (d : Int) : QyuState :=
  { s with now := s.now + d }

/-! ### Dispatch order: the sequence of jobs selected by `_processJob` -/

theorem length_removeJob_lt {l : List Job} {j : Job} (hj : j ∈ l) :
    (removeJob l j).length < l.length := by
  induction l with
  | nil => cases hj
  | cons a t ih =>
    simp only [removeJob, List.filter_cons, List.length_cons] at ih ⊢
    split
    · rename_i hcond
      have hjt : j ∈ t := by
        rcases List.mem_cons.mp hj with h | h
        · rw [h] at hcond; simp at hcond
        · exact h
      simp only [List.length_cons]
      exact Nat.succ_lt_succ (ih hjt)
    · rcases List.mem_cons.mp hj with h | h
      · exact Nat.lt_succ_of_le (List.length_filter_le _ t)
      · exact Nat.lt_succ_of_lt (ih h)

/-- Selecting repeatedly, as consecutive iterations of the `_processJobs`
loop do (with completions interleaved but no new pushes), dequeues the pending
array in this order. -/
def dispatchOrder (l : List Job) : List Job :=
  match h : selectJob l with
  | none => []
  | some j => j :: dispatchOrder (removeJob l j)
termination_by l.length
decreasing_by
  exact length_removeJob_lt (List.mem_of_find?_eq_some h)

/-- The strict order realised by the dispatch sequence: strictly smaller
priority value first, push order (strictly smaller id) within a priority. -/
def jobLt (a b : Job) : Prop :=
  a.priority < b.priority ∨ (a.priority = b.priority ∧ a.id < b.id)

/-- Its reflexive companion, used only to compare candidate orderings. -/
def jobLe (a b : Job) : Prop :=
  a.priority < b.priority ∨ (a.priority = b.priority ∧ a.id ≤ b.id)

/-- Priority comparison alone (the key `_processJob` sorts by). -/
def prioLe (a b : Job) : Prop := a.priority ≤ b.priority

instance : DecidableRel prioLe :=
  fun a b => inferInstanceAs (Decidable (a.priority ≤ b.priority))

instance : IsAntisymm Job jobLe := by
  constructor
  intro a b hab hba
  cases a with
  | mk aid ap =>
    cases b with
    | mk bid bp =>
      simp only [jobLe] at hab hba
      simp only [Job.mk.injEq]
      omega

/-- The stable sort by ascending priority, as a reference implementation:
insertion sort with the priority-only comparison (insertion sort never swaps
elements the comparison considers equal). -/
def stableSortByPriority (l : List Job) : List Job :=
  List.insertionSort prioLe l

theorem jobLt_le {a b : Job} (h : jobLt a b) : jobLe a b := by
  rcases h with h | ⟨h1, h2⟩
  · exact Or.inl h
  · exact Or.inr ⟨h1, Nat.le_of_lt h2⟩

theorem sorted_of_pairwise_jobLt {L : List Job} (h : L.Pairwise jobLt) :
    L.Sorted jobLe :=
  h.imp jobLt_le

theorem minPrio_singleton (j : Job) : minPrio [j] = j.priority := rfl

theorem minPrio_cons_cons (j x : Job) (t : List Job) :
    minPrio (j :: x :: t) = min j.priority (minPrio (x :: t)) := rfl

theorem minPrio_le {l : List Job} {k : Job} (hk : k ∈ l) :
    minPrio l ≤ k.priority := by
  induction l with
  | nil => cases hk
  | cons j r ih =>
    cases r with
    | nil =>
      rcases List.mem_cons.mp hk with h | h
      · rw [minPrio_singleton, h]
      · cases h
    | cons x t =>
      rcases List.mem_cons.mp hk with h | h
      · rw [minPrio_cons_cons, h]
        exact min_le_left _ _
      · rw [minPrio_cons_cons]
        exact le_trans (min_le_right _ _) (ih h)

theorem minPrio_attained {l : List Job} (h : l ≠ []) :
    ∃ k ∈ l, k.priority = minPrio l := by
  induction l with
  | nil => exact absurd rfl h
  | cons j r ih =>
    cases r with
    | nil => exact ⟨j, List.mem_singleton_self j, (minPrio_singleton j).symm⟩
    | cons x t =>
      rcases le_total j.priority (minPrio (x :: t)) with hle | hle
      · refine ⟨j, List.mem_cons_self _ _, ?_⟩
        rw [minPrio_cons_cons, min_eq_left hle]
      · obtain ⟨k, hk, hkp⟩ := ih (by simp)
        refine ⟨k, List.mem_cons_of_mem _ hk, ?_⟩
        rw [minPrio_cons_cons, min_eq_right hle]
        exact hkp

theorem selectJob_isSome {l : List Job} (h : l ≠ []) :
    ∃ j, selectJob l = some j := by
  obtain ⟨k, hk, hkp⟩ := minPrio_attained h
  have : (l.find? (fun j => j.priority == minPrio l)).isSome :=
    List.find?_isSome.mpr ⟨k, hk, by simp [hkp]⟩
  exact Option.isSome_iff_exists.mp this

theorem selectJob_mem {l : List Job} {j : Job} (h : selectJob l = some j) :
    j ∈ l :=
  List.mem_of_find?_eq_some h

theorem selectJob_priority {l : List Job} {j : Job} (h : selectJob l = some j) :
    j.priority = minPrio l := by
  have := List.find?_some h
  simpa using this

theorem selectJob_min {l : List Job} {j : Job} (h : selectJob l = some j) :
    ∀ k ∈ l, j.priority ≤ k.priority := by
  intro k hk
  rw [selectJob_priority h]
  exact minPrio_le hk

theorem find?_split {α : Type} {p : α → Bool} :
    ∀ {l : List α} {a : α}, l.find? p = some a →
      ∃ t1 t2, l = t1 ++ a :: t2 ∧ ∀ x ∈ t1, p x = false := by
  intro l
  induction l with
  | nil => intro a h; cases h
  | cons b t ih =>
    intro a h
    by_cases hb : p b
    · rw [List.find?_cons_of_pos _ hb] at h
      cases h
      exact ⟨[], t, rfl, by intro x hx; cases hx⟩
    · rw [List.find?_cons_of_neg _ hb] at h
      obtain ⟨t1, t2, rfl, hfail⟩ := ih h
      refine ⟨b :: t1, t2, rfl, ?_⟩
      intro x hx
      rcases List.mem_cons.mp hx with h | hx
      · rw [h]
        exact Bool.eq_false_iff.mpr hb
      · exact hfail x hx

theorem mem_removeJob {l : List Job} {j k : Job} (h : k ∈ removeJob l j) :
    k ∈ l ∧ k.id ≠ j.id := by
  have := List.mem_filter.mp h
  refine ⟨this.1, ?_⟩
  simpa using this.2

theorem removeJob_pairwise {R : Job → Job → Prop} {l : List Job} {j : Job}
    (h : l.Pairwise R) : (removeJob l j).Pairwise R :=
  List.Pairwise.sublist (List.filter_sublist l) h

/-- FIFO within a priority level: later equal-priority jobs have larger ids
(given ids increase along the pending array), so `find?` keeps push order. -/
theorem selectJob_first {l : List Job} {j k : Job}
    (hsel : selectJob l = some j) (hpw : l.Pairwise (fun a b => a.id < b.id))
    (hk : k ∈ removeJob l j) (hkp : k.priority = j.priority) :
    j.id < k.id := by
  obtain ⟨hkl, hkid⟩ := mem_removeJob hk
  obtain ⟨t1, t2, hl, hfail⟩ := find?_split hsel
  have hkp' : (k.priority == minPrio l) = true := by
    simp [hkp, selectJob_priority hsel]
  have hknt1 : k ∉ t1 := by
    intro hmem
    have hfk : (k.priority == minPrio l) = false := hfail k hmem
    rw [hkp'] at hfk
    exact Bool.noConfusion hfk
  have hkl' : k ∈ t1 ++ j :: t2 := hl ▸ hkl
  rcases List.mem_append.mp hkl' with h1 | h2
  · exact absurd h1 hknt1
  · rcases List.mem_cons.mp h2 with h2 | h2
    · exact absurd (congrArg Job.id h2) hkid
    · have hpw' : (t1 ++ j :: t2).Pairwise (fun a b => a.id < b.id) := hl ▸ hpw
      have := (List.pairwise_append.mp hpw').2.1
      exact (List.pairwise_cons.mp this).1 k h2

/-- Removal: `removeJob` is exactly the removal of the selected entry when ids are
strictly increasing along the pending array. -/
theorem removeJob_eq_erase {l : List Job} {j : Job} (hj : j ∈ l)
    (hpw : l.Pairwise (fun a b => a.id < b.id)) :
    removeJob l j = l.erase j := by
  induction l with
  | nil => cases hj
  | cons a t ih =>
    by_cases haj : a = j
    · subst haj
      have h2 : ∀ x ∈ t, (x.id != a.id) = true := by
        intro x hx
        have hlt := (List.pairwise_cons.mp hpw).1 x hx
        simp only [bne_iff_ne, ne_eq]
        omega
      rw [List.erase_cons_head]
      simp only [removeJob, List.filter_cons]
      rw [if_neg (by simp)]
      exact List.filter_eq_self.mpr h2
    · have hjt : j ∈ t := by
        rcases List.mem_cons.mp hj with h | h
        · exact absurd h.symm haj
        · exact h
      have hlt : a.id < j.id := (List.pairwise_cons.mp hpw).1 j hjt
      have h2 : ¬(a == j) = true := by simp [haj]
      rw [List.erase_cons_tail h2]
      simp only [removeJob, List.filter_cons]
      rw [if_pos (by simp only [bne_iff_ne, ne_eq]; omega)]
      exact congrArg (a :: ·) (ih hjt (List.pairwise_cons.mp hpw).2)

theorem cons_removeJob_perm {l : List Job} {j : Job}
    (hsel : selectJob l = some j) (hpw : l.Pairwise (fun a b => a.id < b.id)) :
    (j :: removeJob l j).Perm l := by
  rw [removeJob_eq_erase (selectJob_mem hsel) hpw]
  exact (List.perm_cons_erase (selectJob_mem hsel)).symm

theorem selectJob_nil : selectJob [] = none := rfl

theorem dispatchOrder_eq_none {l : List Job} (h : selectJob l = none) :
    dispatchOrder l = [] := by
  rw [dispatchOrder]
  split
  · rfl
  · rename_i j h2
    rw [h] at h2
    cases h2

theorem dispatchOrder_eq_some {l : List Job} {j : Job} (h : selectJob l = some j) :
    dispatchOrder l = j :: dispatchOrder (removeJob l j) := by
  rw [dispatchOrder]
  split
  · rename_i h2
    rw [h] at h2
    cases h2
  · rename_i j2 h2
    rw [h] at h2
    cases h2
    rfl

theorem dispatchOrder_perm_aux :
    ∀ (n : Nat) (l : List Job), l.length ≤ n →
      l.Pairwise (fun a b => a.id < b.id) → (dispatchOrder l).Perm l := by
  intro n
  induction n with
  | zero =>
    intro l hlen _
    have : l = [] := List.eq_nil_of_length_eq_zero (Nat.le_zero.mp hlen)
    subst this
    rw [dispatchOrder_eq_none selectJob_nil]
  | succ n ih =>
    intro l hlen hpw
    cases l with
    | nil => rw [dispatchOrder_eq_none selectJob_nil]
    | cons a t =>
      obtain ⟨j, hsel⟩ := selectJob_isSome (l := a :: t) (by simp)
      rw [dispatchOrder_eq_some hsel]
      have hlt := length_removeJob_lt (selectJob_mem hsel)
      have htail := ih (removeJob (a :: t) j)
        (by omega) (removeJob_pairwise hpw)
      exact (htail.cons j).trans (cons_removeJob_perm hsel hpw)

/-- The selection order of `_processJob` is a permutation of the pending
array (each job is dispatched exactly once), provided ids increase along the
array. -/
theorem dispatchOrder_perm {l : List Job}
    (hpw : l.Pairwise (fun a b => a.id < b.id)) : (dispatchOrder l).Perm l :=
  dispatchOrder_perm_aux l.length l (Nat.le_refl _) hpw

theorem dispatchOrder_pairwise_aux :
    ∀ (n : Nat) (l : List Job), l.length ≤ n →
      l.Pairwise (fun a b => a.id < b.id) →
      (dispatchOrder l).Pairwise jobLt := by
  intro n
  induction n with
  | zero =>
    intro l hlen _
    have : l = [] := List.eq_nil_of_length_eq_zero (Nat.le_zero.mp hlen)
    subst this
    rw [dispatchOrder_eq_none selectJob_nil]
    exact List.Pairwise.nil
  | succ n ih =>
    intro l hlen hpw
    cases l with
    | nil =>
      rw [dispatchOrder_eq_none selectJob_nil]
      exact List.Pairwise.nil
    | cons a t =>
      obtain ⟨j, hsel⟩ := selectJob_isSome (l := a :: t) (by simp)
      rw [dispatchOrder_eq_some hsel]
      have hlt := length_removeJob_lt (selectJob_mem hsel)
      have hpwr := removeJob_pairwise (j := j) hpw
      refine List.pairwise_cons.mpr ⟨?_, ih _ (by omega) hpwr⟩
      intro k hk
      have hkr : k ∈ removeJob (a :: t) j :=
        (dispatchOrder_perm_aux n _ (by omega) hpwr).mem_iff.mp hk
      have hkl : k ∈ a :: t := (mem_removeJob hkr).1
      have hle : j.priority ≤ k.priority := selectJob_min hsel k hkl
      rcases lt_or_eq_of_le hle with hcase | hcase
      · exact Or.inl hcase
      · exact Or.inr ⟨hcase, selectJob_first hsel hpw hkr hcase.symm⟩

/-- The selection order is sorted: strictly increasing in the lexicographic
(priority, id) order, i.e. ascending priority with FIFO tie-break. -/
theorem dispatchOrder_pairwise {l : List Job}
    (hpw : l.Pairwise (fun a b => a.id < b.id)) :
    (dispatchOrder l).Pairwise jobLt :=
  dispatchOrder_pairwise_aux l.length l (Nat.le_refl _) hpw

/-- Inserting a job whose id is below every id of a `(priority, id)`-sorted
list keeps the list `(priority, id)`-sorted: insertion sort by priority alone
is stable. -/
theorem orderedInsert_pairwise_jobLt {a : Job} {L : List Job}
    (hL : L.Pairwise jobLt) (ha : ∀ k ∈ L, a.id < k.id) :
    (L.orderedInsert prioLe a).Pairwise jobLt := by
  induction L with
  | nil =>
    simp only [List.orderedInsert_nil]
    exact List.pairwise_singleton _ _
  | cons b t ih =>
    by_cases h : prioLe a b
    · rw [List.orderedInsert_of_le prioLe t h]
      refine List.pairwise_cons.mpr ⟨?_, hL⟩
      intro k hk
      have haid : a.id < k.id := ha k hk
      have hab : a.priority ≤ b.priority := h
      have hak : a.priority ≤ k.priority := by
        rcases List.mem_cons.mp hk with h2 | h2
        · rw [h2]; exact hab
        · have := (List.pairwise_cons.mp hL).1 k h2
          rcases this with h3 | ⟨h3, _⟩
          · exact le_trans hab (le_of_lt h3)
          · exact le_trans hab (le_of_eq h3)
      rcases lt_or_eq_of_le hak with h3 | h3
      · exact Or.inl h3
      · exact Or.inr ⟨h3, haid⟩
    · simp only [List.orderedInsert]
      rw [if_neg h]
      refine List.pairwise_cons.mpr ⟨?_, ?_⟩
      · intro k hk
        rcases (List.mem_orderedInsert prioLe).mp hk with h2 | h2
        · rw [h2]
          exact Or.inl (lt_of_not_le h)
        · exact (List.pairwise_cons.mp hL).1 k h2
      · exact ih (List.pairwise_cons.mp hL).2
          (fun k hk => ha k (List.mem_cons_of_mem _ hk))

/-- Insertion sort by priority of an id-increasing list is `(priority,
id)`-sorted: the reference stable sort keeps push order inside a priority. -/
theorem stableSort_pairwise {l : List Job}
    (hpw : l.Pairwise (fun a b => a.id < b.id)) :
    (stableSortByPriority l).Pairwise jobLt := by
  induction l with
  | nil => exact List.Pairwise.nil
  | cons a t ih =>
    have h1 := List.pairwise_cons.mp hpw
    refine orderedInsert_pairwise_jobLt (ih h1.2) ?_
    intro k hk
    exact h1.1 k ((List.perm_insertionSort prioLe t).mem_iff.mp hk)

/-- Two permutations of each other that are both `(priority, id)`-sorted are
equal, so the selection order is THE stable sort by ascending priority. -/
theorem dispatchOrder_eq_stableSort {l : List Job}
    (hpw : l.Pairwise (fun a b => a.id < b.id)) :
    dispatchOrder l = stableSortByPriority l := by
  have hperm : (dispatchOrder l).Perm (stableSortByPriority l) :=
    (dispatchOrder_perm hpw).trans (List.perm_insertionSort prioLe l).symm
  exact List.eq_of_perm_of_sorted hperm
    (sorted_of_pairwise_jobLt (dispatchOrder_pairwise hpw))
    (sorted_of_pairwise_jobLt (stableSort_pairwise hpw))

/-! ### The small-step transition system over queue states -/

/-- The actions that drive the queue: the three public methods, one iteration
of the `_processJobs` dispatch loop, the completion callback of an in-flight
job body (with its outcome), and passage of time. -/
inductive Act where
  | push (prio : Option Int)
  | start
  | pause
  | dispatch
  | complete (id : Nat) (outcome : Except Nat Nat)
  | tick (d : Int)

/-- One step of the queue: each constructor applies the corresponding
operation function.  `complete` fires only for an id that is actually in
flight (the callback of `job.job()` exists only for dispatched jobs); `tick`
only moves time forward. -/
inductive QStep (opts : QyuOpts) : QyuState → Act → List Ev → QyuState → Prop
  | push (s : QyuState) (prio : Option Int) :
      QStep opts s (Act.push prio) [] (pushFn s prio)
  | start (s : QyuState) :
      QStep opts s Act.start (startFn s).2 (startFn s).1
  | pause (s : QyuState) :
      QStep opts s Act.pause (pauseFn s).2 (pauseFn s).1
  | dispatch (s : QyuState) :
      QStep opts s Act.dispatch (processJob opts s).2 (processJob opts s).1
  | complete (s : QyuState) (id : Nat) (outcome : Except Nat Nat)
      (hin : id ∈ s.inflight) :
      QStep opts s (Act.complete id outcome) (jobEnded s id outcome).2
        (jobEnded s id outcome).1
  | tick (s : QyuState) (d : Int) (hd : 0 ≤ d) :
      QStep opts s (Act.tick d) [] (tickFn s d)

/-- Reachability from the freshly constructed queue, accumulating the trace
of emitted events. -/
inductive QReach (opts : QyuOpts) : QyuState → List Ev → Prop
  | init : QReach opts initState []
  | step {s : QyuState} {T : List Ev} {a : Act} {evs : List Ev} {s' : QyuState} :
      QReach opts s T → QStep opts s a evs s' → QReach opts s' (T ++ evs)

/-- Actions available inside a `start → quiescence` episode: dispatch-loop
iterations, completions of in-flight jobs, and time — no further `push`,
`start` or `pause` calls. -/
def episodeAct : Act → Prop
  | Act.dispatch => True
  | Act.complete _ _ => True
  | Act.tick _ => True
  | _ => False

/-- Multi-step execution restricted to episode actions, accumulating events. -/
inductive QEpi (opts : QyuOpts) : QyuState → List Ev → QyuState → Prop
  | refl (s : QyuState) : QEpi opts s [] s
  | step {s : QyuState} {T : List Ev} {s' : QyuState} {a : Act} {evs : List Ev}
      {s'' : QyuState} :
      QEpi opts s T s' → QStep opts s' a evs s'' → episodeAct a →
      QEpi opts s (T ++ evs) s''

/-! ### Event counting -/

/-- Is this event a completion report (`done` or `error`)? -/
def complEv : Ev → Bool
  | Ev.done _ _ => true
  | Ev.error _ _ => true
  | _ => false

/-- Is this event a completion report for job `id`? -/
def complOf (id : Nat) : Ev → Bool
  | Ev.done i _ => i == id
  | Ev.error i _ => i == id
  | _ => false

/-- Is this event a `push`-promise resolution for job `id`? -/
def resolveOf (id : Nat) : Ev → Bool
  | Ev.resolve i _ => i == id
  | _ => false

/-- Is this event a `done` report for job `id`? -/
def doneOf (id : Nat) : Ev → Bool
  | Ev.done i _ => i == id
  | _ => false

/-- Is this event a dispatch mark? -/
def dispEv : Ev → Bool
  | Ev.dispatched _ => true
  | _ => false

/-- Is this event the `drain` emission? -/
def drainEv : Ev → Bool
  | Ev.drain => true
  | _ => false

/-- Number of `drain` events in a trace. -/
def countDrain (T : List Ev) : Nat := T.countP drainEv

/-- Number of occurrences of job `id` in the pending array. -/
def pendCount (s : QyuState) (id : Nat) : Nat :=
  s.jobs.countP (fun j => j.id == id)

/-- Number of occurrences of job `id` in the in-flight list. -/
def inflCount (s : QyuState) (id : Nat) : Nat := s.inflight.count id

/-- No `done`/`error` event occurs anywhere after a `drain` event. -/
def noComplAfterDrain : List Ev → Bool
  | [] => true
  | Ev.drain :: rest => rest.all (fun e => !complEv e) && noComplAfterDrain rest
  | _ :: rest => noComplAfterDrain rest

/-- Whether the queue is quiescent: no pending job, nothing in flight. -/
def quiet (s : QyuState) : Bool := s.jobs.isEmpty && s.rl.running == 0

/-! ### Field-level facts about the operation functions -/

theorem toggleRL_running (rl : RL) (b : Bool) : (toggleRL rl b).running = rl.running := by
  unfold toggleRL
  split
  · rfl
  · split <;> rfl

theorem toggleRL_recentJobs (rl : RL) (b : Bool) :
    (toggleRL rl b).recentJobs = rl.recentJobs := by
  unfold toggleRL
  split
  · rfl
  · split <;> rfl

theorem toggleRL_false_processedJobs (rl : RL) :
    (toggleRL rl false).processedJobs = rl.processedJobs := by
  unfold toggleRL
  split
  · rfl
  · split
    · rename_i h1 h2
      cases h2
    · rfl

theorem drainIfNoMore_fst (s : QyuState) :
    (drainIfNoMore s).1.jobs = s.jobs ∧
    (drainIfNoMore s).1.started = s.started ∧
    (drainIfNoMore s).1.nextId = s.nextId ∧
    (drainIfNoMore s).1.inflight = s.inflight ∧
    (drainIfNoMore s).1.pauseWaiters = s.pauseWaiters ∧
    (drainIfNoMore s).1.now = s.now ∧
    (drainIfNoMore s).1.rl.running = s.rl.running ∧
    (drainIfNoMore s).1.rl.recentJobs = s.rl.recentJobs ∧
    (drainIfNoMore s).1.rl.processedJobs = s.rl.processedJobs := by
  unfold drainIfNoMore
  split
  · exact ⟨rfl, rfl, rfl, rfl, rfl, rfl, toggleRL_running _ _, toggleRL_recentJobs _ _,
      toggleRL_false_processedJobs _⟩
  · exact ⟨rfl, rfl, rfl, rfl, rfl, rfl, rfl, rfl, rfl⟩

theorem drainIfNoMore_snd (s : QyuState) :
    (drainIfNoMore s).2 = if s.jobs.isEmpty && s.rl.running == 0 then [Ev.drain] else [] := by
  unfold drainIfNoMore
  split <;> simp_all

theorem pushFn_fst (s : QyuState) (p : Option Int) :
    (pushFn s p).jobs = s.jobs ++ [{ id := s.nextId, priority := p.getD 10 }] ∧
    (pushFn s p).started = s.started ∧
    (pushFn s p).nextId = s.nextId + 1 ∧
    (pushFn s p).inflight = s.inflight ∧
    (pushFn s p).pauseWaiters = s.pauseWaiters ∧
    (pushFn s p).now = s.now ∧
    (pushFn s p).rl.running = s.rl.running ∧
    (pushFn s p).rl.recentJobs = s.rl.recentJobs := by
  unfold pushFn
  by_cases h : s.started = true
  · rw [if_pos h]
    exact ⟨rfl, rfl, rfl, rfl, rfl, rfl, toggleRL_running _ _, toggleRL_recentJobs _ _⟩
  · rw [if_neg h]
    exact ⟨rfl, rfl, rfl, rfl, rfl, rfl, rfl, rfl⟩

theorem startFn_fst (s : QyuState) :
    (startFn s).1.jobs = s.jobs ∧
    (startFn s).1.started = true ∧
    (startFn s).1.nextId = s.nextId ∧
    (startFn s).1.inflight = s.inflight ∧
    (startFn s).1.pauseWaiters = s.pauseWaiters ∧
    (startFn s).1.now = s.now ∧
    (startFn s).1.rl.running = s.rl.running ∧
    (startFn s).1.rl.recentJobs = s.rl.recentJobs := by
  unfold startFn
  have h := drainIfNoMore_fst { s with started := true, rl := toggleRL s.rl true }
  refine ⟨h.1, h.2.1, h.2.2.1, h.2.2.2.1, h.2.2.2.2.1, h.2.2.2.2.2.1, ?_, ?_⟩
  · rw [h.2.2.2.2.2.2.1]
    exact toggleRL_running _ _
  · rw [h.2.2.2.2.2.2.2.1]
    exact toggleRL_recentJobs _ _

theorem startFn_snd (s : QyuState) :
    (startFn s).2 = if s.jobs.isEmpty && s.rl.running == 0 then [Ev.drain] else [] := by
  unfold startFn
  rw [drainIfNoMore_snd]
  have h : (toggleRL s.rl true).running = s.rl.running := toggleRL_running _ _
  simp [h]

theorem pauseFn_fst (s : QyuState) :
    (pauseFn s).1.jobs = s.jobs ∧
    (pauseFn s).1.started = false ∧
    (pauseFn s).1.nextId = s.nextId ∧
    (pauseFn s).1.inflight = s.inflight ∧
    (pauseFn s).1.now = s.now ∧
    (pauseFn s).1.rl.running = s.rl.running ∧
    (pauseFn s).1.rl.recentJobs = s.rl.recentJobs := by
  unfold pauseFn
  by_cases h : (s.rl.running == 0) = true
  · rw [if_pos h]
    exact ⟨rfl, rfl, rfl, rfl, rfl, toggleRL_running _ _, toggleRL_recentJobs _ _⟩
  · rw [if_neg h]
    exact ⟨rfl, rfl, rfl, rfl, rfl, rfl, rfl⟩

theorem pauseFn_snd (s : QyuState) :
    (pauseFn s).2 = if s.rl.running == 0 then [Ev.pauseResolved] else [] := by
  unfold pauseFn
  by_cases h : (s.rl.running == 0) = true
  · rw [if_pos h, if_pos h]
  · rw [if_neg h, if_neg h]

theorem processJob_not_ready {opts : QyuOpts} {s : QyuState}
    (h : readyToRunJobs opts s = false) : processJob opts s = (s, []) := by
  unfold processJob
  rw [h]
  simp

theorem processJob_ready {opts : QyuOpts} {s : QyuState} {j : Job}
    (h : readyToRunJobs opts s = true) (hsel : selectJob s.jobs = some j) :
    processJob opts s =
      ({ s with jobs := removeJob s.jobs j,
                inflight := s.inflight ++ [j.id],
                rl := jobStartedRL s.rl }, [Ev.dispatched j.id]) := by
  unfold processJob
  rw [h, hsel]
  simp

theorem readyToRunJobs_selectJob {opts : QyuOpts} {s : QyuState}
    (h : readyToRunJobs opts s = true) : ∃ j, selectJob s.jobs = some j := by
  have hne : s.jobs ≠ [] := by
    intro hnil
    unfold readyToRunJobs at h
    rw [hnil] at h
    simp at h
  exact selectJob_isSome hne

theorem jobEndedRL_running (rl : RL) (now : Int) :
    (jobEndedRL rl now).running = rl.running - 1 := rfl

theorem jobEndedRL_recentJobs (rl : RL) (now : Int) :
    (jobEndedRL rl now).recentJobs = cleanRecentJobs rl now ++ [now] := rfl

theorem jobEndedRL_processedJobs (rl : RL) (now : Int) :
    (jobEndedRL rl now).processedJobs = rl.processedJobs := rfl

theorem jobEnded_fields (s : QyuState) (id : Nat) (out : Except Nat Nat) :
    (jobEnded s id out).1.jobs = s.jobs ∧
    (jobEnded s id out).1.started = s.started ∧
    (jobEnded s id out).1.nextId = s.nextId ∧
    (jobEnded s id out).1.inflight = s.inflight.erase id ∧
    (jobEnded s id out).1.now = s.now ∧
    (jobEnded s id out).1.rl.running = s.rl.running - 1 ∧
    (jobEnded s id out).1.rl.recentJobs = cleanRecentJobs s.rl s.now ++ [s.now] ∧
    (jobEnded s id out).1.rl.processedJobs = s.rl.processedJobs := by
  simp only [jobEnded]
  have hd := drainIfNoMore_fst
    { s with rl := jobEndedRL s.rl s.now, inflight := s.inflight.erase id }
  obtain ⟨d1, d2, d3, d4, d5, d6, d7, d8, d9⟩ := hd
  split
  · refine ⟨d1, d2, d3, d4, d6, ?_, ?_, ?_⟩
    · rw [toggleRL_running, d7]
      rfl
    · rw [toggleRL_recentJobs, d8]
      rfl
    · rw [toggleRL_false_processedJobs, d9]
      rfl
  · exact ⟨d1, d2, d3, d4, d6, by rw [d7]; rfl, by rw [d8]; rfl, by rw [d9]; rfl⟩

theorem jobEnded_snd (s : QyuState) (id : Nat) (out : Except Nat Nat) :
    (jobEnded s id out).2 =
      complEvs id out
      ++ (if s.jobs.isEmpty && (s.rl.running - 1) == 0 then [Ev.drain] else [])
      ++ (if (s.rl.running - 1) == 0 && s.pauseWaiters != 0 then
            List.replicate s.pauseWaiters Ev.pauseResolved else []) := by
  simp only [jobEnded]
  have hd := drainIfNoMore_fst
    { s with rl := jobEndedRL s.rl s.now, inflight := s.inflight.erase id }
  obtain ⟨d1, d2, d3, d4, d5, d6, d7, d8, d9⟩ := hd
  have hr : (drainIfNoMore
      { s with rl := jobEndedRL s.rl s.now, inflight := s.inflight.erase id }).1.rl.running
      = s.rl.running - 1 := by rw [d7]; rfl
  have hw : (drainIfNoMore
      { s with rl := jobEndedRL s.rl s.now, inflight := s.inflight.erase id }).1.pauseWaiters
      = s.pauseWaiters := d5
  have hs : (drainIfNoMore
      { s with rl := jobEndedRL s.rl s.now, inflight := s.inflight.erase id }).2
      = (if s.jobs.isEmpty && (s.rl.running - 1) == 0 then [Ev.drain] else []) := by
    rw [drainIfNoMore_snd]
    rfl
  split
  · rename_i hcond
    rw [hr, hw] at hcond
    rw [hs, hw, hcond]
    simp
  · rename_i hcond
    rw [hr, hw] at hcond
    have hcond' : ((s.rl.running - 1 == 0) && s.pauseWaiters != 0) = false :=
      Bool.eq_false_iff.mpr hcond
    rw [hs, hcond']
    simp

/-! ### Counting helpers -/

theorem countP_replicate_zero {p : Ev → Bool} {n : Nat}
    (h : p Ev.pauseResolved = false) :
    (List.replicate n Ev.pauseResolved).countP p = 0 := by
  induction n with
  | zero => rfl
  | succ n ih =>
    rw [List.replicate_succ]
    simp [List.countP_cons, h, ih]

theorem countP_if_drain (c : Bool) {p : Ev → Bool} (h : p Ev.drain = false) :
    (if c then [Ev.drain] else []).countP p = 0 := by
  cases c <;> simp [h]

theorem countP_if_pause (c : Bool) {p : Ev → Bool} (n : Nat)
    (h : p Ev.pauseResolved = false) :
    (if c then List.replicate n Ev.pauseResolved else []).countP p = 0 := by
  cases c
  · simp
  · simp only [if_pos]
    exact countP_replicate_zero h

theorem complEvs_countP_complOf (id x : Nat) (out : Except Nat Nat) :
    (complEvs id out).countP (complOf x) = if id = x then 1 else 0 := by
  cases out with
  | ok v => by_cases h : id = x <;> simp [complEvs, complOf, h]
  | error e => by_cases h : id = x <;> simp [complEvs, complOf, h]

theorem complEvs_countP_complEv (id : Nat) (out : Except Nat Nat) :
    (complEvs id out).countP complEv = 1 := by
  cases out <;> simp [complEvs, complEv]

theorem complEvs_countP_dispEv (id : Nat) (out : Except Nat Nat) :
    (complEvs id out).countP dispEv = 0 := by
  cases out <;> simp [complEvs, dispEv]

theorem complEvs_countP_resolveOf_eq_doneOf (id x : Nat) (out : Except Nat Nat) :
    (complEvs id out).countP (resolveOf x) = (complEvs id out).countP (doneOf x) := by
  cases out with
  | ok v => by_cases h : id = x <;> simp [complEvs, resolveOf, doneOf, h]
  | error e => simp [complEvs, resolveOf, doneOf]

theorem complEvs_countP_resolve_eq_done (id x r : Nat) (out : Except Nat Nat) :
    (complEvs id out).countP (fun e => e == Ev.resolve x r) =
      (complEvs id out).countP (fun e => e == Ev.done x r) := by
  cases out with
  | ok v =>
    simp only [complEvs, List.countP_cons, List.countP_nil, beq_iff_eq]
    by_cases h1 : id = x
    · by_cases h2 : v = r
      · simp [h1, h2]
      · simp [h1, h2]
    · simp [h1]
  | error e => simp [complEvs, beq_iff_eq]

theorem countP_removeJob_self (l : List Job) (j : Job) :
    (removeJob l j).countP (fun x => x.id == j.id) = 0 := by
  rw [List.countP_eq_zero]
  intro a ha
  have := (List.mem_filter.mp ha).2
  simp at this ⊢
  exact this

theorem countP_removeJob_ne (l : List Job) (j : Job) (i : Nat) (h : i ≠ j.id) :
    (removeJob l j).countP (fun x => x.id == i) = l.countP (fun x => x.id == i) := by
  induction l with
  | nil => rfl
  | cons a t ih =>
    by_cases ha : (a.id != j.id) = true
    · have : removeJob (a :: t) j = a :: removeJob t j := by
        simp [removeJob, List.filter_cons, ha]
      rw [this, List.countP_cons, List.countP_cons, ih]
    · have ha' : a.id = j.id := by simpa using ha
      have : removeJob (a :: t) j = removeJob t j := by
        simp only [removeJob, List.filter_cons]
        rw [if_neg ha]
      rw [this, List.countP_cons, ih]
      have : (a.id == i) = false := by
        simp [ha']
        omega
      rw [this]
      simp

/-! ### The reachability invariant -/

/-- The inductive invariant of reachable states with their traces: `running`
mirrors the number of in-flight callbacks (hence is non-negative) and obeys
the rate limit; ids in the pending array and in flight are below the global
counter and the pending array is id-increasing; every id occupies at most one
place among pending / in-flight / completed; resolutions match `done` events;
and `done`+`error` events balance dispatches against in-flight jobs. -/
structure QInv (opts : QyuOpts) (s : QyuState) (T : List Ev) : Prop where
  run_eq : s.rl.running = (s.inflight.length : Int)
  run_le : ∀ n, opts.rateLimit = some n → s.rl.running ≤ (n : Int)
  run_serial : opts.rateLimit = none → s.rl.running ≤ 1
  pend_lt : ∀ j ∈ s.jobs, j.id < s.nextId
  infl_lt : ∀ i ∈ s.inflight, i < s.nextId
  jobs_pw : s.jobs.Pairwise (fun a b => a.id < b.id)
  occ : ∀ i, pendCount s i + inflCount s i + T.countP (complOf i) ≤ 1
  fresh_pend : ∀ i, s.nextId ≤ i → pendCount s i = 0
  fresh_infl : ∀ i, s.nextId ≤ i → inflCount s i = 0
  fresh_compl : ∀ i, s.nextId ≤ i → T.countP (complOf i) = 0
  res_done : ∀ i r, T.countP (fun e => e == Ev.resolve i r) =
    T.countP (fun e => e == Ev.done i r)
  res_done_id : ∀ i, T.countP (resolveOf i) = T.countP (doneOf i)
  disp_eq : T.countP complEv + s.inflight.length = T.countP dispEv

theorem inv_init (opts : QyuOpts) : QInv opts initState [] := by
  refine ⟨rfl, ?_, ?_, ?_, ?_, ?_, ?_, ?_, ?_, ?_, ?_, ?_, ?_⟩
  · intro n _
    simp [initState]
  · intro _
    simp [initState]
  · intro j hj
    simp [initState] at hj
  · intro i hi
    simp [initState] at hi
  · simp [initState]
  · intro i
    simp [initState, pendCount, inflCount]
  · intro i _
    simp [initState, pendCount]
  · intro i _
    simp [initState, inflCount]
  · intro i _
    simp
  · intro i r
    simp
  · intro i
    simp
  · simp [initState]

theorem inv_tick {opts : QyuOpts} {s : QyuState} {T : List Ev} (h : QInv opts s T)
    (d : Int) : QInv opts (tickFn s d) T := by
  obtain ⟨h1, h2, h3, h4, h5, h6, h7, h8, h9, h10, h11, h12, h13⟩ := h
  exact ⟨h1, h2, h3, h4, h5, h6, h7, h8, h9, h10, h11, h12, h13⟩

theorem inv_push {opts : QyuOpts} {s : QyuState} {T : List Ev} (h : QInv opts s T)
    (p : Option Int) : QInv opts (pushFn s p) T := by
  obtain ⟨h1, h2, h3, h4, h5, h6, h7, h8, h9, h10, h11, h12, h13⟩ := h
  obtain ⟨f1, f2, f3, f4, f5, f6, f7, f8⟩ := pushFn_fst s p
  have hpend : ∀ i, pendCount (pushFn s p) i =
      pendCount s i + (if s.nextId = i then 1 else 0) := by
    intro i
    unfold pendCount
    rw [f1, List.countP_append]
    by_cases hi : s.nextId = i <;> simp [hi]
  have hinfl : ∀ i, inflCount (pushFn s p) i = inflCount s i := by
    intro i
    unfold inflCount
    rw [f4]
  refine ⟨?_, ?_, ?_, ?_, ?_, ?_, ?_, ?_, ?_, ?_, h11, h12, ?_⟩
  · rw [f7, f4, h1]
  · intro n hn
    rw [f7]
    exact h2 n hn
  · intro hn
    rw [f7]
    exact h3 hn
  · intro j hj
    rw [f1] at hj
    rw [f3]
    rcases List.mem_append.mp hj with hj | hj
    · exact Nat.lt_succ_of_lt (h4 j hj)
    · have : j = { id := s.nextId, priority := p.getD 10 } := by simpa using hj
      rw [this]
      exact Nat.lt_succ_self _
  · intro i hi
    rw [f4] at hi
    rw [f3]
    exact Nat.lt_succ_of_lt (h5 i hi)
  · rw [f1]
    rw [List.pairwise_append]
    refine ⟨h6, List.pairwise_singleton _ _, ?_⟩
    intro a ha b hb
    have : b = { id := s.nextId, priority := p.getD 10 } := by simpa using hb
    rw [this]
    exact h4 a ha
  · intro i
    rw [hpend, hinfl]
    by_cases hi : s.nextId = i
    · rw [if_pos hi]
      have e1 : pendCount s i = 0 := h8 i (le_of_eq hi)
      have e2 : inflCount s i = 0 := h9 i (le_of_eq hi)
      have e3 : T.countP (complOf i) = 0 := h10 i (le_of_eq hi)
      omega
    · rw [if_neg hi]
      have := h7 i
      omega
  · intro i hi
    rw [f3] at hi
    rw [hpend, if_neg (by omega)]
    exact h8 i (by omega)
  · intro i hi
    rw [f3] at hi
    rw [hinfl]
    exact h9 i (by omega)
  · intro i hi
    rw [f3] at hi
    exact h10 i (by omega)
  · rw [f4]
    exact h13

theorem countP_startFn_snd (s : QyuState) {p : Ev → Bool} (h : p Ev.drain = false) :
    ((startFn s).2).countP p = 0 := by
  rw [startFn_snd]
  exact countP_if_drain _ h

theorem countP_pauseFn_snd (s : QyuState) {p : Ev → Bool}
    (h : p Ev.pauseResolved = false) : ((pauseFn s).2).countP p = 0 := by
  rw [pauseFn_snd]
  by_cases hc : (s.rl.running == 0) = true
  · rw [if_pos hc]
    simp [List.countP_cons, h]
  · rw [if_neg hc]
    rfl

theorem inv_start {opts : QyuOpts} {s : QyuState} {T : List Ev} (h : QInv opts s T) :
    QInv opts (startFn s).1 (T ++ (startFn s).2) := by
  obtain ⟨h1, h2, h3, h4, h5, h6, h7, h8, h9, h10, h11, h12, h13⟩ := h
  obtain ⟨f1, f2, f3, f4, f5, f6, f7, f8⟩ := startFn_fst s
  have hpend : ∀ i, pendCount (startFn s).1 i = pendCount s i := by
    intro i
    unfold pendCount
    rw [f1]
  have hinfl : ∀ i, inflCount (startFn s).1 i = inflCount s i := by
    intro i
    unfold inflCount
    rw [f4]
  refine ⟨?_, ?_, ?_, ?_, ?_, ?_, ?_, ?_, ?_, ?_, ?_, ?_, ?_⟩
  · rw [f7, f4, h1]
  · intro n hn
    rw [f7]
    exact h2 n hn
  · intro hn
    rw [f7]
    exact h3 hn
  · intro j hj
    rw [f1] at hj
    rw [f3]
    exact h4 j hj
  · intro i hi
    rw [f4] at hi
    rw [f3]
    exact h5 i hi
  · rw [f1]
    exact h6
  · intro i
    rw [hpend, hinfl, List.countP_append, countP_startFn_snd s (by rfl)]
    have := h7 i
    omega
  · intro i hi
    rw [f3] at hi
    rw [hpend]
    exact h8 i hi
  · intro i hi
    rw [f3] at hi
    rw [hinfl]
    exact h9 i hi
  · intro i hi
    rw [f3] at hi
    rw [List.countP_append, countP_startFn_snd s (by rfl), h10 i hi]
  · intro i r
    rw [List.countP_append, List.countP_append,
      countP_startFn_snd s (by rfl), countP_startFn_snd s (by rfl), h11 i r]
  · intro i
    rw [List.countP_append, List.countP_append,
      countP_startFn_snd s (by rfl), countP_startFn_snd s (by rfl), h12 i]
  · rw [f4, List.countP_append, List.countP_append,
      countP_startFn_snd s (by rfl), countP_startFn_snd s (by rfl)]
    omega

theorem inv_pause {opts : QyuOpts} {s : QyuState} {T : List Ev} (h : QInv opts s T) :
    QInv opts (pauseFn s).1 (T ++ (pauseFn s).2) := by
  obtain ⟨h1, h2, h3, h4, h5, h6, h7, h8, h9, h10, h11, h12, h13⟩ := h
  obtain ⟨f1, f2, f3, f4, f6, f7, f8⟩ := pauseFn_fst s
  have hpend : ∀ i, pendCount (pauseFn s).1 i = pendCount s i := by
    intro i
    unfold pendCount
    rw [f1]
  have hinfl : ∀ i, inflCount (pauseFn s).1 i = inflCount s i := by
    intro i
    unfold inflCount
    rw [f4]
  refine ⟨?_, ?_, ?_, ?_, ?_, ?_, ?_, ?_, ?_, ?_, ?_, ?_, ?_⟩
  · rw [f7, f4, h1]
  · intro n hn
    rw [f7]
    exact h2 n hn
  · intro hn
    rw [f7]
    exact h3 hn
  · intro j hj
    rw [f1] at hj
    rw [f3]
    exact h4 j hj
  · intro i hi
    rw [f4] at hi
    rw [f3]
    exact h5 i hi
  · rw [f1]
    exact h6
  · intro i
    rw [hpend, hinfl, List.countP_append, countP_pauseFn_snd s (by rfl)]
    have := h7 i
    omega
  · intro i hi
    rw [f3] at hi
    rw [hpend]
    exact h8 i hi
  · intro i hi
    rw [f3] at hi
    rw [hinfl]
    exact h9 i hi
  · intro i hi
    rw [f3] at hi
    rw [List.countP_append, countP_pauseFn_snd s (by rfl), h10 i hi]
  · intro i r
    rw [List.countP_append, List.countP_append,
      countP_pauseFn_snd s (by rfl), countP_pauseFn_snd s (by rfl), h11 i r]
  · intro i
    rw [List.countP_append, List.countP_append,
      countP_pauseFn_snd s (by rfl), countP_pauseFn_snd s (by rfl), h12 i]
  · rw [f4, List.countP_append, List.countP_append,
      countP_pauseFn_snd s (by rfl), countP_pauseFn_snd s (by rfl)]
    omega

theorem readyToRunJobs_true {opts : QyuOpts} {s : QyuState}
    (h : readyToRunJobs opts s = true) :
    s.started = true ∧ s.jobs ≠ [] ∧ canRunMore opts s.rl s.now = true := by
  unfold readyToRunJobs at h
  rw [Bool.and_eq_true, Bool.and_eq_true] at h
  refine ⟨h.1.1, ?_, h.2⟩
  intro hnil
  have := h.1.2
  rw [hnil] at this
  simp at this

theorem canRunMore_serial {opts : QyuOpts} {rl : RL} {now : Int}
    (ho : opts.rateLimit = none) (h : canRunMore opts rl now = true) :
    rl.running = 0 := by
  unfold canRunMore canRunMoreM at h
  rw [ho] at h
  simpa using h

theorem canRunMore_limited {opts : QyuOpts} {rl : RL} {now : Int} {n : Nat}
    (ho : opts.rateLimit = some n) (h : canRunMore opts rl now = true) :
    rl.running + ((cleanRecentJobs rl now).length : Int) < (n : Int) := by
  unfold canRunMore canRunMoreM at h
  rw [ho] at h
  simpa using h

theorem inv_dispatch {opts : QyuOpts} {s : QyuState} {T : List Ev}
    (h : QInv opts s T) :
    QInv opts (processJob opts s).1 (T ++ (processJob opts s).2) := by
  obtain ⟨h1, h2, h3, h4, h5, h6, h7, h8, h9, h10, h11, h12, h13⟩ := h
  by_cases hready : readyToRunJobs opts s = true
  · obtain ⟨j, hsel⟩ := readyToRunJobs_selectJob hready
    obtain ⟨hstarted, hne, hcan⟩ := readyToRunJobs_true hready
    have hj : j ∈ s.jobs := selectJob_mem hsel
    have hjlt : j.id < s.nextId := h4 j hj
    rw [processJob_ready hready hsel]
    have hppos : 0 < pendCount s j.id := by
      rw [pendCount, List.countP_pos_iff]
      exact ⟨j, hj, by simp⟩
    refine ⟨?_, ?_, ?_, ?_, ?_, ?_, ?_, ?_, ?_, ?_, ?_, ?_, ?_⟩
    · show (jobStartedRL s.rl).running = ((s.inflight ++ [j.id]).length : Int)
      rw [jobStartedRL]
      simp only [List.length_append, List.length_singleton]
      rw [h1]
      push_cast
      ring
    · intro n hn
      show (jobStartedRL s.rl).running ≤ (n : Int)
      rw [jobStartedRL]
      have := canRunMore_limited hn hcan
      have hnn : (0 : Int) ≤ ((cleanRecentJobs s.rl s.now).length : Int) := by positivity
      simp only
      omega
    · intro hn
      show (jobStartedRL s.rl).running ≤ 1
      rw [jobStartedRL]
      have := canRunMore_serial hn hcan
      simp only
      omega
    · intro j2 hj2
      exact h4 j2 (mem_removeJob hj2).1
    · intro i hi
      rcases List.mem_append.mp hi with hi | hi
      · exact h5 i hi
      · have : i = j.id := by simpa using hi
        rw [this]
        exact hjlt
    · exact removeJob_pairwise h6
    · intro i
      show (removeJob s.jobs j).countP (fun x => x.id == i)
          + (s.inflight ++ [j.id]).count i
          + (T ++ [Ev.dispatched j.id]).countP (complOf i) ≤ 1
      rw [List.count_append, List.countP_append]
      have hz : ([Ev.dispatched j.id]).countP (complOf i) = 0 := by
        simp [complOf]
      rw [hz]
      by_cases hij : i = j.id
      · rw [hij]
        rw [countP_removeJob_self]
        have hone : ([j.id] : List Nat).count j.id = 1 := by simp
        rw [hone]
        have hocc := h7 j.id
        have hpc : pendCount s j.id + inflCount s j.id + T.countP (complOf j.id) ≤ 1 :=
          hocc
        rw [pendCount] at hppos
        rw [pendCount, inflCount] at hpc
        omega
      · rw [countP_removeJob_ne _ _ _ hij]
        have hb : (j.id == i) = false := by
          simp only [beq_eq_false_iff_ne, ne_eq]
          omega
        have hzero : ([j.id] : List Nat).count i = 0 := by
          rw [List.count_singleton, hb]
          simp
        rw [hzero]
        have hocc := h7 i
        rw [pendCount, inflCount] at hocc
        omega
    · intro i hi
      have hi' : s.nextId ≤ i := hi
      show (removeJob s.jobs j).countP (fun x => x.id == i) = 0
      have hij : i ≠ j.id := by omega
      rw [countP_removeJob_ne _ _ _ hij]
      have := h8 i hi'
      rw [pendCount] at this
      exact this
    · intro i hi
      have hi' : s.nextId ≤ i := hi
      show (s.inflight ++ [j.id]).count i = 0
      rw [List.count_append]
      have h0 := h9 i hi'
      rw [inflCount] at h0
      have hb : (j.id == i) = false := by
        simp only [beq_eq_false_iff_ne, ne_eq]
        omega
      have h1' : ([j.id] : List Nat).count i = 0 := by
        rw [List.count_singleton, hb]
        simp
      omega
    · intro i hi
      show (T ++ [Ev.dispatched j.id]).countP (complOf i) = 0
      rw [List.countP_append, h10 i hi]
      simp [complOf]
    · intro i r
      show (T ++ [Ev.dispatched j.id]).countP (fun e => e == Ev.resolve i r)
          = (T ++ [Ev.dispatched j.id]).countP (fun e => e == Ev.done i r)
      rw [List.countP_append, List.countP_append, h11 i r]
      simp
    · intro i
      show (T ++ [Ev.dispatched j.id]).countP (resolveOf i)
          = (T ++ [Ev.dispatched j.id]).countP (doneOf i)
      rw [List.countP_append, List.countP_append, h12 i]
      simp [resolveOf, doneOf]
    · show (T ++ [Ev.dispatched j.id]).countP complEv + (s.inflight ++ [j.id]).length
          = (T ++ [Ev.dispatched j.id]).countP dispEv
      rw [List.countP_append, List.countP_append]
      have e1 : ([Ev.dispatched j.id]).countP complEv = 0 := by simp [complEv]
      have e2 : ([Ev.dispatched j.id]).countP dispEv = 1 := by simp [dispEv]
      rw [e1, e2]
      simp only [List.length_append, List.length_singleton]
      omega
  · have hr' : readyToRunJobs opts s = false := Bool.eq_false_iff.mpr hready
    rw [processJob_not_ready hr']
    simp only [List.append_nil]
    exact ⟨h1, h2, h3, h4, h5, h6, h7, h8, h9, h10, h11, h12, h13⟩

theorem countP_jobEnded_snd (s : QyuState) (id : Nat) (out : Except Nat Nat)
    {p : Ev → Bool} (hd : p Ev.drain = false) (hp : p Ev.pauseResolved = false) :
    ((jobEnded s id out).2).countP p = (complEvs id out).countP p := by
  rw [jobEnded_snd, List.countP_append, List.countP_append,
    countP_if_drain _ hd, countP_if_pause _ _ hp]
  omega

theorem inv_complete {opts : QyuOpts} {s : QyuState} {T : List Ev}
    {id : Nat} {out : Except Nat Nat} (h : QInv opts s T) (hin : id ∈ s.inflight) :
    QInv opts (jobEnded s id out).1 (T ++ (jobEnded s id out).2) := by
  obtain ⟨h1, h2, h3, h4, h5, h6, h7, h8, h9, h10, h11, h12, h13⟩ := h
  obtain ⟨f1, f2, f3, f4, f5, f6, f7, f8⟩ := jobEnded_fields s id out
  have hlen : 0 < s.inflight.length :=
    List.length_pos.mpr (by intro hnil; rw [hnil] at hin; cases hin)
  have hidlt : id < s.nextId := h5 id hin
  have hcnt : 0 < s.inflight.count id := List.count_pos_iff.mpr hin
  refine ⟨?_, ?_, ?_, ?_, ?_, ?_, ?_, ?_, ?_, ?_, ?_, ?_, ?_⟩
  · rw [f6, f4, List.length_erase_of_mem hin, h1]
    omega
  · intro n hn
    rw [f6]
    have := h2 n hn
    omega
  · intro hn
    rw [f6]
    have := h3 hn
    omega
  · intro j hj
    rw [f1] at hj
    rw [f3]
    exact h4 j hj
  · intro i hi
    rw [f4] at hi
    rw [f3]
    exact h5 i (List.mem_of_mem_erase hi)
  · rw [f1]
    exact h6
  · intro i
    unfold pendCount inflCount
    rw [f1, f4, List.countP_append,
      countP_jobEnded_snd s id out (by simp [complOf]) (by simp [complOf]),
      complEvs_countP_complOf]
    by_cases hi : id = i
    · rw [if_pos hi]
      rw [hi] at hcnt ⊢
      rw [List.count_erase_self]
      have hocc := h7 i
      rw [pendCount, inflCount] at hocc
      omega
    · rw [if_neg hi]
      rw [List.count_erase_of_ne (fun hcontra => hi hcontra.symm)]
      have hocc := h7 i
      rw [pendCount, inflCount] at hocc
      omega
  · intro i hi
    have hi' : s.nextId ≤ i := f3 ▸ hi
    unfold pendCount
    rw [f1]
    have := h8 i hi'
    rw [pendCount] at this
    exact this
  · intro i hi
    have hi' : s.nextId ≤ i := f3 ▸ hi
    unfold inflCount
    rw [f4, List.count_erase_of_ne (by omega)]
    have := h9 i hi'
    rw [inflCount] at this
    exact this
  · intro i hi
    have hi' : s.nextId ≤ i := f3 ▸ hi
    rw [List.countP_append,
      countP_jobEnded_snd s id out (by simp [complOf]) (by simp [complOf]),
      complEvs_countP_complOf, h10 i hi', if_neg (by omega)]
  · intro i r
    rw [List.countP_append, List.countP_append,
      countP_jobEnded_snd s id out (by simp) (by simp),
      countP_jobEnded_snd s id out (by simp) (by simp),
      complEvs_countP_resolve_eq_done, h11 i r]
  · intro i
    rw [List.countP_append, List.countP_append,
      countP_jobEnded_snd s id out (by simp [resolveOf]) (by simp [resolveOf]),
      countP_jobEnded_snd s id out (by simp [doneOf]) (by simp [doneOf]),
      complEvs_countP_resolveOf_eq_doneOf, h12 i]
  · rw [f4, List.countP_append, List.countP_append,
      countP_jobEnded_snd s id out (by simp [complEv]) (by simp [complEv]),
      countP_jobEnded_snd s id out (by simp [dispEv]) (by simp [dispEv]),
      complEvs_countP_complEv, complEvs_countP_dispEv,
      List.length_erase_of_mem hin]
    omega

theorem inv_step {opts : QyuOpts} {s : QyuState} {T : List Ev} {a : Act}
    {evs : List Ev} {s' : QyuState} (h : QInv opts s T)
    (hs : QStep opts s a evs s') : QInv opts s' (T ++ evs) := by
  cases hs with
  | push p =>
    rw [List.append_nil]
    exact inv_push h p
  | start => exact inv_start h
  | pause => exact inv_pause h
  | dispatch => exact inv_dispatch h
  | complete id out hin => exact inv_complete h hin
  | tick d hd =>
    rw [List.append_nil]
    exact inv_tick h d

/-- Every reachable state satisfies the invariant. -/
theorem qreach_inv {opts : QyuOpts} {s : QyuState} {T : List Ev}
    (h : QReach opts s T) : QInv opts s T := by
  induction h with
  | init => exact inv_init opts
  | step hr hstep ih => exact inv_step ih hstep


theorem qepi_reach {opts : QyuOpts} {s1 : QyuState} {T1 : List Ev}
    (h1 : QReach opts s1 T1) {s2 : QyuState} {E : List Ev}
    (hepi : QEpi opts s1 E s2) : QReach opts s2 (T1 ++ E) := by
  induction hepi with
  | refl =>
    rw [List.append_nil]
    exact h1
  | step hepi hstep hact ih =>
    rw [← List.append_assoc]
    exact QReach.step ih hstep

/-! ### Drain bookkeeping -/

theorem processJob_quiet {opts : QyuOpts} {s : QyuState} (h : quiet s = true) :
    processJob opts s = (s, []) := by
  apply processJob_not_ready
  unfold quiet at h
  rw [Bool.and_eq_true] at h
  unfold readyToRunJobs
  rw [h.1]
  simp

theorem all_replicate_pause (n : Nat) :
    (List.replicate n Ev.pauseResolved).all (fun e => !complEv e) = true := by
  induction n with
  | zero => rfl
  | succ n ih => simp_all [List.replicate_succ, complEv]

theorem noCompl_replicate_pause (n : Nat) :
    noComplAfterDrain (List.replicate n Ev.pauseResolved) = true := by
  induction n with
  | zero => rfl
  | succ n ih => simpa [List.replicate_succ, noComplAfterDrain] using ih

theorem complEvs_countP_drainEv (id : Nat) (out : Except Nat Nat) :
    (complEvs id out).countP drainEv = 0 := by
  cases out <;> simp [complEvs, drainEv]

theorem countDrain_if_drain (c : Bool) :
    countDrain (if c then [Ev.drain] else []) = if c then 1 else 0 := by
  cases c <;> simp [countDrain, drainEv]

theorem countDrain_jobEnded_snd (s : QyuState) (id : Nat) (out : Except Nat Nat) :
    countDrain ((jobEnded s id out).2) =
      if s.jobs.isEmpty && (s.rl.running - 1) == 0 then 1 else 0 := by
  rw [jobEnded_snd]
  unfold countDrain
  rw [List.countP_append, List.countP_append]
  have e1 := complEvs_countP_drainEv id out
  have e2 := countP_if_pause ((s.rl.running - 1) == 0 && s.pauseWaiters != 0)
    (p := drainEv) s.pauseWaiters (by rfl)
  unfold countDrain at *
  rw [e1, e2, ← countDrain, countDrain_if_drain]
  omega

theorem quiet_jobEnded (s : QyuState) (id : Nat) (out : Except Nat Nat) :
    quiet (jobEnded s id out).1 = (s.jobs.isEmpty && (s.rl.running - 1) == 0) := by
  obtain ⟨f1, f2, f3, f4, f5, f6, f7, f8⟩ := jobEnded_fields s id out
  unfold quiet
  rw [f1, f6]

theorem quiet_tick (s : QyuState) (d : Int) : quiet (tickFn s d) = quiet s := rfl

theorem noCompl_jobEnded_snd (s : QyuState) (id : Nat) (out : Except Nat Nat) :
    noComplAfterDrain ((jobEnded s id out).2) = true := by
  rw [jobEnded_snd]
  by_cases hc1 : (s.jobs.isEmpty && (s.rl.running - 1) == 0) = true
  · rw [if_pos hc1]
    by_cases hc2 : ((s.rl.running - 1) == 0 && s.pauseWaiters != 0) = true
    · rw [if_pos hc2]
      cases out <;>
        simp [complEvs, noComplAfterDrain, all_replicate_pause,
          noCompl_replicate_pause, complEv]
    · rw [if_neg hc2]
      cases out <;> simp [complEvs, noComplAfterDrain, complEv]
  · rw [if_neg hc1]
    by_cases hc2 : ((s.rl.running - 1) == 0 && s.pauseWaiters != 0) = true
    · rw [if_pos hc2]
      cases out <;>
        simp [complEvs, noComplAfterDrain, all_replicate_pause,
          noCompl_replicate_pause, complEv]
    · rw [if_neg hc2]
      cases out <;> simp [complEvs, noComplAfterDrain, complEv]


theorem noCompl_cons_ne (e : Ev) (L : List Ev) (h : e ≠ Ev.drain) :
    noComplAfterDrain (e :: L) = noComplAfterDrain L := by
  cases e <;> first
    | exact absurd rfl h
    | rfl

theorem countDrain_cons_ne (e : Ev) (L : List Ev) (h : e ≠ Ev.drain) :
    countDrain (e :: L) = countDrain L := by
  cases e <;> first
    | exact absurd rfl h
    | simp [countDrain, List.countP_cons, drainEv]

theorem countDrain_append (A B : List Ev) :
    countDrain (A ++ B) = countDrain A + countDrain B := by
  unfold countDrain
  exact List.countP_append _ _ _

theorem noCompl_append {A B : List Ev} (hA : noComplAfterDrain A = true)
    (hB : noComplAfterDrain B = true)
    (hAB : countDrain A ≠ 0 → B.all (fun e => !complEv e) = true) :
    noComplAfterDrain (A ++ B) = true := by
  induction A with
  | nil => simpa using hB
  | cons e A' ih =>
    by_cases he : e = Ev.drain
    · subst he
      have hA' : A'.all (fun e => !complEv e) = true ∧ noComplAfterDrain A' = true := by
        simpa [noComplAfterDrain, Bool.and_eq_true] using hA
      have hBall : B.all (fun e => !complEv e) = true := by
        apply hAB
        simp [countDrain, List.countP_cons, drainEv]
      have hrec : noComplAfterDrain (A' ++ B) = true := ih hA'.2 (fun _ => hBall)
      show noComplAfterDrain (Ev.drain :: (A' ++ B)) = true
      simp [noComplAfterDrain, List.all_append, hA'.1, hBall, hrec]
    · have hA' : noComplAfterDrain A' = true := by
        rw [noCompl_cons_ne e A' he] at hA
        exact hA
      have hAB' : countDrain A' ≠ 0 → B.all (fun e => !complEv e) = true := by
        intro hc
        apply hAB
        rw [countDrain_cons_ne e A' he]
        exact hc
      show noComplAfterDrain (e :: (A' ++ B)) = true
      rw [noCompl_cons_ne e _ he]
      exact ih hA' hAB'

theorem quiet_eq_false_of_jobs_ne {s : QyuState} (h : s.jobs ≠ []) :
    quiet s = false := by
  unfold quiet
  have hje : s.jobs.isEmpty = false := by
    rw [Bool.eq_false_iff]
    simpa using h
  rw [hje]
  rfl

theorem quiet_eq_false_of_inflight {opts : QyuOpts} {s : QyuState} {T : List Ev}
    {id : Nat} (hinv : QInv opts s T) (hin : id ∈ s.inflight) :
    quiet s = false := by
  have hlen : 0 < s.inflight.length :=
    List.length_pos.mpr (by intro hnil; rw [hnil] at hin; cases hin)
  have hrun := hinv.run_eq
  unfold quiet
  have hz : (s.rl.running == 0) = false := by
    rw [Bool.eq_false_iff]
    simp only [ne_eq, beq_iff_eq]
    omega
  rw [hz]
  simp

/-- One step of an episode: `drain` emissions track entry into quiescence,
no completion event follows a `drain` within the step's events, and from a
quiescent state an episode step emits nothing and stays quiescent. -/
theorem qepi_step_main {opts : QyuOpts} {s' : QyuState} {T' : List Ev} {a : Act}
    {evs : List Ev} {s'' : QyuState} (hinv : QInv opts s' T')
    (hstep : QStep opts s' a evs s'') (hact : episodeAct a) :
    (countDrain evs + (if quiet s' = true then 1 else 0)
        = (if quiet s'' = true then 1 else 0))
    ∧ noComplAfterDrain evs = true
    ∧ (quiet s' = true → evs = [] ∧ quiet s'' = true) := by
  cases hstep with
  | push p => exact absurd hact (by simp [episodeAct])
  | start => exact absurd hact (by simp [episodeAct])
  | pause => exact absurd hact (by simp [episodeAct])
  | dispatch =>
    by_cases hready : readyToRunJobs opts s' = true
    · obtain ⟨j, hsel⟩ := readyToRunJobs_selectJob hready
      obtain ⟨hstarted, hne, hcan⟩ := readyToRunJobs_true hready
      have hq' : quiet s' = false := quiet_eq_false_of_jobs_ne hne
      rw [processJob_ready hready hsel]
      have hrunpos : (0 : Int) ≤ s'.rl.running := by
        have := hinv.run_eq
        omega
      have hq'' : quiet ({ s' with jobs := removeJob s'.jobs j,
                                   inflight := s'.inflight ++ [j.id],
                                   rl := jobStartedRL s'.rl }) = false := by
        unfold quiet
        have hz : ((jobStartedRL s'.rl).running == 0) = false := by
          rw [Bool.eq_false_iff]
          simp only [ne_eq, beq_iff_eq, jobStartedRL]
          omega
        show (_ && ((jobStartedRL s'.rl).running == 0)) = false
        rw [hz]
        simp
      refine ⟨?_, by rfl, ?_⟩
      · rw [hq', hq'']
        simp [countDrain, drainEv]
      · intro hq1
        rw [hq1] at hq'
        cases hq'
    · rw [processJob_not_ready (Bool.eq_false_iff.mpr hready)]
      exact ⟨by simp [countDrain], rfl, fun hq => ⟨rfl, hq⟩⟩
  | complete id out hin =>
    have hq' : quiet s' = false := quiet_eq_false_of_inflight hinv hin
    refine ⟨?_, noCompl_jobEnded_snd s' id out, ?_⟩
    · rw [hq', countDrain_jobEnded_snd, quiet_jobEnded]
      simp
    · intro hq1
      rw [hq1] at hq'
      cases hq'
  | tick d hd =>
    rw [quiet_tick]
    exact ⟨by simp [countDrain], rfl, fun hq => ⟨rfl, hq⟩⟩

/-- Inside an episode (no `push`/`start`/`pause`): the number of `drain`
events emitted tracks entry into quiescence, the trace never reports a
completion after a `drain`, and from a quiescent state no completion event is
ever emitted. -/
theorem qepi_main {opts : QyuOpts} {s1 : QyuState} {T1 : List Ev}
    (h1 : QReach opts s1 T1) {s2 : QyuState} {E : List Ev}
    (hepi : QEpi opts s1 E s2) :
    (countDrain E + (if quiet s1 = true then 1 else 0)
        = (if quiet s2 = true then 1 else 0))
    ∧ noComplAfterDrain E = true
    ∧ (quiet s1 = true → E.all (fun e => !complEv e) = true) := by
  induction hepi with
  | refl =>
    refine ⟨by simp [countDrain], rfl, fun _ => rfl⟩
  | step hepi hstep hact ih =>
    rename_i TT sMid aa evs2 sFin
    obtain ⟨ih1, ih2, ih3⟩ := ih
    have hinv' := qreach_inv (qepi_reach h1 hepi)
    obtain ⟨p1, p2, p3⟩ := qepi_step_main hinv' hstep hact
    have hmid : countDrain TT ≠ 0 → quiet sMid = true := by
      intro hc
      by_cases hq : quiet sMid = true
      · exact hq
      · rw [if_neg hq] at ih1
        exact absurd (by omega : countDrain TT = 0) hc
    refine ⟨?_, ?_, ?_⟩
    · rw [countDrain_append]
      omega
    · refine noCompl_append ih2 p2 ?_
      intro hc
      obtain ⟨he, _⟩ := p3 (hmid hc)
      rw [he]
      rfl
    · intro hq1
      have hT : TT.all (fun e => !complEv e) = true := ih3 hq1
      rw [hq1, if_pos rfl] at ih1
      have hqmid : quiet sMid = true := by
        by_cases hq : quiet sMid = true
        · exact hq
        · rw [if_neg hq] at ih1
          omega
      obtain ⟨he, _⟩ := p3 hqmid
      rw [he, List.append_nil]
      exact hT

/-- Safety of `drain`: whenever a step emits `drain`, the resulting state has
an empty pending array and `running = 0` (and both were already so when
`_drainIfNoMore` tested them: the step does not change them). -/
theorem step_drain_quiet {opts : QyuOpts} {s : QyuState} {a : Act}
    {evs : List Ev} {s' : QyuState} (hs : QStep opts s a evs s')
    (hd : Ev.drain ∈ evs) : s'.jobs = [] ∧ s'.rl.running = 0 := by
  cases hs with
  | push p => cases hd
  | start =>
    rw [startFn_snd] at hd
    by_cases hc : (s.jobs.isEmpty && s.rl.running == 0) = true
    · rw [Bool.and_eq_true] at hc
      obtain ⟨f1, f2, f3, f4, f5, f6, f7, f8⟩ := startFn_fst s
      refine ⟨?_, ?_⟩
      · rw [f1]
        simpa using hc.1
      · rw [f7]
        simpa using hc.2
    · rw [if_neg hc] at hd
      cases hd
  | pause =>
    rw [pauseFn_snd] at hd
    by_cases hc : (s.rl.running == 0) = true
    · rw [if_pos hc] at hd
      simp at hd
    · rw [if_neg hc] at hd
      cases hd
  | dispatch =>
    by_cases hready : readyToRunJobs opts s = true
    · obtain ⟨j, hsel⟩ := readyToRunJobs_selectJob hready
      rw [processJob_ready hready hsel] at hd
      simp at hd
    · rw [processJob_not_ready (Bool.eq_false_iff.mpr hready)] at hd
      cases hd
  | complete id out hin =>
    rw [jobEnded_snd] at hd
    have hcond : (s.jobs.isEmpty && (s.rl.running - 1) == 0) = true := by
      by_contra hc
      rw [if_neg hc] at hd
      rcases List.mem_append.mp hd with hd2 | hd2
      · rcases List.mem_append.mp hd2 with hd3 | hd3
        · cases out <;> simp [complEvs] at hd3
        · cases hd3
      · by_cases hc2 : ((s.rl.running - 1) == 0 && s.pauseWaiters != 0) = true
        · rw [if_pos hc2] at hd2
          have := List.eq_of_mem_replicate hd2
          cases this
        · rw [if_neg hc2] at hd2
          cases hd2
    rw [Bool.and_eq_true] at hcond
    obtain ⟨f1, f2, f3, f4, f5, f6, f7, f8⟩ := jobEnded_fields s id out
    refine ⟨?_, ?_⟩
    · rw [f1]
      simpa using hcond.1
    · rw [f6]
      simpa using hcond.2
  | tick d hdle => cases hd

/-- Is this event an `error` report for job `id`? -/
def errorOf (id : Nat) : Ev → Bool
  | Ev.error i _ => i == id
  | _ => false

theorem countP_complOf_split (id : Nat) (T : List Ev) :
    T.countP (complOf id) = T.countP (doneOf id) + T.countP (errorOf id) := by
  induction T with
  | nil => rfl
  | cons e T' ih =>
    rw [List.countP_cons, List.countP_cons, List.countP_cons, ih]
    cases e <;> simp [complOf, doneOf, errorOf] <;> omega

theorem noCompl_split {E : List Ev} (h : noComplAfterDrain E = true) :
    ∀ A B, E = A ++ Ev.drain :: B → ∀ e ∈ B, complEv e = false := by
  induction E with
  | nil =>
    intro A B hAB
    exact absurd hAB (by simp)
  | cons x E' ih =>
    intro A B hAB
    cases A with
    | nil =>
      simp only [List.nil_append, List.cons.injEq] at hAB
      obtain ⟨hx, hE⟩ := hAB
      subst hx
      subst hE
      intro e he
      have hconj : E'.all (fun e => !complEv e) = true ∧ noComplAfterDrain E' = true := by
        simpa [noComplAfterDrain, Bool.and_eq_true] using h
      have := List.all_eq_true.mp hconj.1 e he
      simpa using this
    | cons y A' =>
      simp only [List.cons_append, List.cons.injEq] at hAB
      obtain ⟨hxy, hE⟩ := hAB
      have h' : noComplAfterDrain E' = true := by
        by_cases hx : x = Ev.drain
        · subst hx
          have hconj : E'.all (fun e => !complEv e) = true
              ∧ noComplAfterDrain E' = true := by
            simpa [noComplAfterDrain, Bool.and_eq_true] using h
          exact hconj.2
        · rw [noCompl_cons_ne x E' hx] at h
          exact h
      exact ih h' A' B hE

theorem find?_unique {α : Type} {p : α → Bool} {j : α} :
    ∀ {l : List α}, j ∈ l → p j = true → (∀ x ∈ l, p x = true → x = j) →
      l.find? p = some j := by
  intro l
  induction l with
  | nil => intro hj; cases hj
  | cons a t ih =>
    intro hj hpj huniq
    by_cases hpa : p a = true
    · have : a = j := huniq a (List.mem_cons_self _ _) hpa
      rw [List.find?_cons_of_pos _ hpa, this]
    · have hja : j ≠ a := by
        intro hcontra
        rw [hcontra] at hpj
        exact hpa hpj
      have hjt : j ∈ t := by
        rcases List.mem_cons.mp hj with hc | hc
        · exact absurd hc hja
        · exact hc
      rw [List.find?_cons_of_neg _ hpa]
      exact ih hjt hpj (fun x hx hpx => huniq x (List.mem_cons_of_mem _ hx) hpx)

/-- A job strictly below every other pending priority is selected first. -/
theorem selectJob_strict_min {l : List Job} {j : Job} (hj : j ∈ l)
    (hmin : ∀ k ∈ l, k ≠ j → j.priority < k.priority) :
    selectJob l = some j := by
  have hminp : minPrio l = j.priority := by
    obtain ⟨k0, hk0, hk0p⟩ := minPrio_attained (l := l)
      (by intro hnil; rw [hnil] at hj; cases hj)
    by_cases hk0j : k0 = j
    · rw [hk0j] at hk0p
      exact hk0p.symm
    · have h1 : j.priority < k0.priority := hmin k0 hk0 hk0j
      have h2 : minPrio l ≤ j.priority := minPrio_le hj
      omega
  apply find?_unique hj (by simp [hminp])
  intro x hx hpx
  by_contra hxj
  have h1 : j.priority < x.priority := hmin x hx hxj
  have h2 : x.priority = minPrio l := by simpa using hpx
  omega

/-- Lower priority value means earlier position in the dispatch order. -/
theorem dispatchOrder_lt_position {l : List Job} {j k : Job}
    (hpw : l.Pairwise (fun a b => a.id < b.id)) (hj : j ∈ l) (hk : k ∈ l)
    (hjk : j.priority < k.priority) :
    (dispatchOrder l).indexOf j < (dispatchOrder l).indexOf k := by
  have hperm := dispatchOrder_perm hpw
  have hpwd := dispatchOrder_pairwise hpw
  have hjd : j ∈ dispatchOrder l := hperm.mem_iff.mpr hj
  have hkd : k ∈ dispatchOrder l := hperm.mem_iff.mpr hk
  have hjlen : (dispatchOrder l).indexOf j < (dispatchOrder l).length :=
    List.indexOf_lt_length.mpr hjd
  have hklen : (dispatchOrder l).indexOf k < (dispatchOrder l).length :=
    List.indexOf_lt_length.mpr hkd
  by_contra hcontra
  have hne : (dispatchOrder l).indexOf k ≠ (dispatchOrder l).indexOf j := by
    intro heq
    have e1 := List.getElem_indexOf hjlen
    have e2 := List.getElem_indexOf hklen
    have e3 : (dispatchOrder l)[(dispatchOrder l).indexOf j]
        = (dispatchOrder l)[(dispatchOrder l).indexOf k] := by
      congr 1
      omega
    have ejk : j = k := by
      rw [← e1, e3, e2]
    rw [ejk] at hjk
    omega
  have hlt : (dispatchOrder l).indexOf k < (dispatchOrder l).indexOf j := by omega
  have := (List.pairwise_iff_getElem.mp hpwd) _ _ hklen hjlen hlt
  rw [List.getElem_indexOf hklen, List.getElem_indexOf hjlen] at this
  rcases this with hc | ⟨hc, _⟩ <;> omega

/-! ### The claims -/

/-- C1: `canRunMore` returns true in serial mode (`rateLimit` null) iff
`running = 0`, and in rate-limited mode (`rateLimit = n`) iff `running` plus
the number of completion timestamps within the trailing 1000 ms is strictly
less than `n`. -/
theorem C1_canRunMore_admission : ∀ (opts : QyuOpts) (rl : RL) (now : Int),
    (opts.rateLimit = none → (canRunMore opts rl now = true ↔ rl.running = 0))
    ∧ (∀ n : Nat, opts.rateLimit = some n →
        (canRunMore opts rl now = true ↔
          rl.running
            + ((rl.recentJobs.filter (fun t => decide (now - t ≤ 1000))).length : Int)
            < (n : Int))) := by
  intro opts rl now
  constructor
  · intro ho
    unfold canRunMore canRunMoreM
    rw [ho]
    simp
  · intro n ho
    unfold canRunMore canRunMoreM
    rw [ho]
    simp [cleanRecentJobs]

def rl0 : RL := { running := 0, recentJobs := [], processedJobs := 0, statsArmed := false }

theorem C1_witness :
    (canRunMore { rateLimit := none } rl0 5 = true ↔ rl0.running = 0)
    ∧ (canRunMore { rateLimit := some 2 } rl0 5 = true ↔
        rl0.running
          + ((rl0.recentJobs.filter (fun t => decide ((5 : Int) - t ≤ 1000))).length : Int)
          < ((2 : Nat) : Int)) :=
  ⟨(C1_canRunMore_admission { rateLimit := none } rl0 5).1 rfl,
   (C1_canRunMore_admission { rateLimit := some 2 } rl0 5).2 2 rfl⟩

/-- C2: when the pending array is non-empty the dispatch loop selects a job
of minimum priority (the first pushed among equals), removes exactly that job,
and the resulting dispatch order is the stable sort of the pushes by
ascending priority — stated for id-increasing pending arrays, which is what
consecutive pushes produce. -/
theorem C2_dispatch_order : ∀ (l : List Job),
    l.Pairwise (fun a b => a.id < b.id) →
    (∀ j, selectJob l = some j →
      j ∈ l ∧ j.priority = minPrio l ∧ (∀ k ∈ l, j.priority ≤ k.priority)
        ∧ (j :: removeJob l j).Perm l)
    ∧ (l ≠ [] → ∃ j, selectJob l = some j)
    ∧ dispatchOrder l = stableSortByPriority l
    ∧ (dispatchOrder l).Pairwise jobLt := by
  intro l hpw
  refine ⟨?_, fun h => selectJob_isSome h,
    dispatchOrder_eq_stableSort hpw, dispatchOrder_pairwise hpw⟩
  intro j hsel
  exact ⟨selectJob_mem hsel, selectJob_priority hsel, selectJob_min hsel,
    cons_removeJob_perm hsel hpw⟩

theorem C2_witness :
    dispatchOrder [{ id := 0, priority := 8 }, { id := 1, priority := 1 },
        { id := 2, priority := 7 }]
      = stableSortByPriority [{ id := 0, priority := 8 }, { id := 1, priority := 1 },
        { id := 2, priority := 7 }]
    ∧ (dispatchOrder [{ id := 0, priority := 8 }, { id := 1, priority := 1 },
        { id := 2, priority := 7 }]).Pairwise jobLt :=
  ⟨(C2_dispatch_order _ (by decide)).2.2.1, (C2_dispatch_order _ (by decide)).2.2.2⟩

/-- C3: in every reachable state, `running` is non-negative, bounded by the
rate limit in rate-limited mode, and bounded by 1 in serial mode. -/
theorem C3_running_bounds : ∀ (opts : QyuOpts) (s : QyuState) (T : List Ev),
    QReach opts s T →
    0 ≤ s.rl.running
    ∧ (∀ n : Nat, opts.rateLimit = some n → s.rl.running ≤ (n : Int))
    ∧ (opts.rateLimit = none → s.rl.running ≤ 1) := by
  intro opts s T h
  have hi := qreach_inv h
  refine ⟨?_, hi.run_le, hi.run_serial⟩
  have := hi.run_eq
  omega

def opts0 : QyuOpts := { rateLimit := none }

def wS1 : QyuState := pushFn initState none

def wS2 : QyuState := (startFn wS1).1

def wS3 : QyuState := (processJob opts0 wS2).1

def wT3 : List Ev := (([] ++ []) ++ (startFn wS1).2) ++ (processJob opts0 wS2).2

def wS4 : QyuState := (jobEnded wS3 0 (Except.ok 42)).1

def wT4 : List Ev := wT3 ++ (jobEnded wS3 0 (Except.ok 42)).2

theorem wReach3 : QReach opts0 wS3 wT3 :=
  QReach.step
    (QReach.step (QReach.step QReach.init (QStep.push initState none))
      (QStep.start wS1))
    (QStep.dispatch wS2)

theorem wReach4 : QReach opts0 wS4 wT4 :=
  QReach.step wReach3 (QStep.complete wS3 0 (Except.ok 42) (by decide))

theorem C3_witness : 0 ≤ wS3.rl.running ∧ wS3.rl.running ≤ 1 :=
  ⟨(C3_running_bounds opts0 wS3 wT3 wReach3).1,
   (C3_running_bounds opts0 wS3 wT3 wReach3).2.2 rfl⟩

/-- C9: `canRunMore` is pure: the state it returns is the one it was given —
in particular the pruning of `recentJobs` it computes is not stored (only
`jobEnded`, via `_appendEndedJob`, persists the pruned list), and `running`
and `processedJobs` are untouched. -/
theorem C9_canRunMore_pure : ∀ (opts : QyuOpts) (rl : RL) (now : Int),
    (canRunMoreM opts rl now).2 = rl
    ∧ (canRunMoreM opts rl now).2.recentJobs = rl.recentJobs
    ∧ (canRunMoreM opts rl now).2.running = rl.running
    ∧ (canRunMoreM opts rl now).2.processedJobs = rl.processedJobs
    ∧ (appendEndedJob rl now).recentJobs = cleanRecentJobs rl now ++ [now] := by
  intro opts rl now
  have h2 : (canRunMoreM opts rl now).2 = rl := by
    unfold canRunMoreM
    cases opts.rateLimit <;> rfl
  exact ⟨h2, by rw [h2], by rw [h2], by rw [h2], rfl⟩

/-- C10: `push` stores any integer priority unvalidated (no clamping), a
missing priority defaults to 10, a job whose priority is strictly below every
other pending job's is selected first, and in particular any job with
priority at most 0 is dispatched before every job with priority in [1, 10]. -/
theorem C10_priority_unvalidated :
    (∀ (s : QyuState) (p : Int),
      (pushFn s (some p)).jobs = s.jobs ++ [{ id := s.nextId, priority := p }])
    ∧ (∀ s : QyuState,
      (pushFn s none).jobs = s.jobs ++ [{ id := s.nextId, priority := 10 }])
    ∧ (∀ (l : List Job) (j : Job), j ∈ l →
        (∀ k ∈ l, k ≠ j → j.priority < k.priority) → selectJob l = some j)
    ∧ (∀ (l : List Job) (j k : Job), l.Pairwise (fun a b => a.id < b.id) →
        j ∈ l → k ∈ l → j.priority ≤ 0 → 1 ≤ k.priority →
        (dispatchOrder l).indexOf j < (dispatchOrder l).indexOf k) := by
  refine ⟨?_, ?_, ?_, ?_⟩
  · intro s p
    exact (pushFn_fst s (some p)).1
  · intro s
    exact (pushFn_fst s none).1
  · intro l j hj hmin
    exact selectJob_strict_min hj hmin
  · intro l j k hpw hj hk hj0 hk1
    exact dispatchOrder_lt_position hpw hj hk (by omega)

theorem C10_witness :
    (pushFn initState (some (-3))).jobs = [] ++ [{ id := 0, priority := -3 }]
    ∧ selectJob [{ id := 0, priority := 5 }, { id := 1, priority := 0 }]
        = some { id := 1, priority := 0 }
    ∧ (dispatchOrder [{ id := 0, priority := 5 }, { id := 1, priority := 0 }]).indexOf
          { id := 1, priority := 0 }
        < (dispatchOrder [{ id := 0, priority := 5 }, { id := 1, priority := 0 }]).indexOf
          { id := 0, priority := 5 } :=
  ⟨C10_priority_unvalidated.1 initState (-3),
   C10_priority_unvalidated.2.2.1 _ _ (by decide) (by decide),
   C10_priority_unvalidated.2.2.2 _ _ _ (by decide) (by decide) (by decide)
     (by decide) (by decide)⟩

/-- C4: a step emits `drain` only when the pending array is empty and
`running = 0`; and over a `start → quiescence` episode (a `start()` call
followed by dispatch-loop iterations, completions and time passing, with no
further `push`/`start`/`pause`), exactly one `drain` is emitted when the
episode ends quiescent — none otherwise — and no `done`/`error` event of the
episode follows the `drain`. -/
theorem C4_drain_once : ∀ (opts : QyuOpts) (s0 : QyuState) (T0 : List Ev),
    QReach opts s0 T0 →
    ∀ (evs1 : List Ev) (s1 : QyuState), QStep opts s0 Act.start evs1 s1 →
    ∀ (E : List Ev) (s2 : QyuState), QEpi opts s1 E s2 →
    (countDrain (evs1 ++ E) = (if quiet s2 = true then 1 else 0))
    ∧ (∀ A B, evs1 ++ E = A ++ Ev.drain :: B → ∀ e ∈ B, complEv e = false)
    ∧ (∀ (s : QyuState) (a : Act) (evs : List Ev) (s' : QyuState),
        QStep opts s a evs s' → Ev.drain ∈ evs →
        s'.jobs = [] ∧ s'.rl.running = 0) := by
  intro opts s0 T0 h0 evs1 s1 hstart E s2 hepi
  cases hstart
  have h1 : QReach opts (startFn s0).1 (T0 ++ (startFn s0).2) :=
    QReach.step h0 (QStep.start s0)
  obtain ⟨m1, m2, m3⟩ := qepi_main h1 hepi
  have hq1 : quiet (startFn s0).1 = quiet s0 := by
    unfold quiet
    obtain ⟨f1, f2, f3, f4, f5, f6, f7, f8⟩ := startFn_fst s0
    rw [f1, f7]
  have hcd1 : countDrain (startFn s0).2 = if quiet s0 = true then 1 else 0 := by
    rw [startFn_snd]
    exact countDrain_if_drain _
  have hA : noComplAfterDrain (startFn s0).2 = true := by
    rw [startFn_snd]
    by_cases hc : (s0.jobs.isEmpty && s0.rl.running == 0) = true
    · rw [if_pos hc]
      rfl
    · rw [if_neg hc]
      rfl
  have hAB : countDrain (startFn s0).2 ≠ 0 → E.all (fun e => !complEv e) = true := by
    intro hc
    rw [hcd1] at hc
    have hq0 : quiet s0 = true := by
      by_cases hq : quiet s0 = true
      · exact hq
      · rw [if_neg hq] at hc
        exact absurd rfl hc
    exact m3 (by rw [hq1, hq0])
  rw [hq1] at m1
  refine ⟨?_, ?_, ?_⟩
  · rw [countDrain_append, hcd1]
    omega
  · exact noCompl_split (noCompl_append hA m2 hAB)
  · intro s a evs s' hs hd
    exact step_drain_quiet hs hd

theorem C4_witness :
    countDrain ((startFn initState).2 ++ ([] : List Ev))
      = (if quiet (startFn initState).1 = true then 1 else 0) :=
  (C4_drain_once opts0 initState [] QReach.init (startFn initState).2
    (startFn initState).1 (QStep.start initState) [] (startFn initState).1
    (QEpi.refl (startFn initState).1)).1

/-- C5: the future returned by `push` resolves at most once, it resolves with
the job's id and result exactly when that job emitted `done` with that result,
and a job that emitted `error` never resolves its future (over every
reachable trace). -/
theorem C5_push_promise : ∀ (opts : QyuOpts) (s : QyuState) (T : List Ev),
    QReach opts s T → ∀ id : Nat,
    T.countP (resolveOf id) ≤ 1
    ∧ (∀ r : Nat, (Ev.resolve id r ∈ T ↔ Ev.done id r ∈ T))
    ∧ (∀ e : Nat, Ev.error id e ∈ T → T.countP (resolveOf id) = 0) := by
  intro opts s T h id
  have hi := qreach_inv h
  have hocc := hi.occ id
  have hsplit := countP_complOf_split id T
  refine ⟨?_, ?_, ?_⟩
  · rw [hi.res_done_id id]
    omega
  · intro r
    have hc := hi.res_done id r
    constructor
    · intro hm
      have hpos : 0 < T.countP (fun e => e == Ev.resolve id r) :=
        List.countP_pos_iff.mpr ⟨_, hm, by simp⟩
      rw [hc] at hpos
      obtain ⟨a, ha, hpa⟩ := List.countP_pos_iff.mp hpos
      have : a = Ev.done id r := by simpa using hpa
      rw [this] at ha
      exact ha
    · intro hm
      have hpos : 0 < T.countP (fun e => e == Ev.done id r) :=
        List.countP_pos_iff.mpr ⟨_, hm, by simp⟩
      rw [← hc] at hpos
      obtain ⟨a, ha, hpa⟩ := List.countP_pos_iff.mp hpos
      have : a = Ev.resolve id r := by simpa using hpa
      rw [this] at ha
      exact ha
  · intro e hm
    have hpos : 0 < T.countP (errorOf id) :=
      List.countP_pos_iff.mpr ⟨_, hm, by simp [errorOf]⟩
    rw [hi.res_done_id id]
    omega

theorem C5_witness :
    wT4.countP (resolveOf 0) ≤ 1
    ∧ (Ev.resolve 0 42 ∈ wT4 ↔ Ev.done 0 42 ∈ wT4) :=
  ⟨(C5_push_promise opts0 wS4 wT4 wReach4 0).1,
   (C5_push_promise opts0 wS4 wT4 wReach4 0).2.1 42⟩

/-- C6 counterexample: calling `start()` twice on an empty queue is not a
no-op for the event history — the second `start()` re-runs `_drainIfNoMore`
and emits a second `drain` even though the queue was already started. -/
theorem C6_counterexample :
    ((startFn initState).1).started = true
    ∧ (startFn ((startFn initState).1)).2 = [Ev.drain]
    ∧ (startFn ((startFn initState).1)).2 ≠ [] := by
  refine ⟨?_, ?_, ?_⟩
  · decide
  · decide
  · decide

/-- C6 (amended): `pause()` on an already-paused queue leaves the state
unchanged apart from disarming the stats timer, resolving immediately iff no
job is in flight (otherwise registering a waiter resolved when `running`
reaches 0); `start()` on an already-started queue resolves immediately and
leaves the pending array, in-flight set, `running`, window and counters
unchanged, but re-runs the stats arming and the drain check: on a quiescent
queue it emits an extra `drain` event. -/
theorem C6_idempotent_amended : ∀ s : QyuState,
    (s.started = true →
      ((startFn s).1.started = true
        ∧ (startFn s).1.jobs = s.jobs
        ∧ (startFn s).1.inflight = s.inflight
        ∧ (startFn s).1.nextId = s.nextId
        ∧ (startFn s).1.pauseWaiters = s.pauseWaiters
        ∧ (startFn s).1.rl.running = s.rl.running
        ∧ (startFn s).1.rl.recentJobs = s.rl.recentJobs
        ∧ (startFn s).2 = (if quiet s = true then [Ev.drain] else [])))
    ∧ (s.started = false →
      pauseFn s = (if s.rl.running == 0
        then ({ s with rl := toggleRL s.rl false }, [Ev.pauseResolved])
        else ({ s with pauseWaiters := s.pauseWaiters + 1 }, []))) := by
  intro s
  constructor
  · intro _
    obtain ⟨f1, f2, f3, f4, f5, f6, f7, f8⟩ := startFn_fst s
    refine ⟨f2, f1, f4, f3, f5, f7, f8, ?_⟩
    rw [startFn_snd]
    rfl
  · intro hs
    cases s with
    | mk jb st ni infl rl pw nw =>
      cases hs
      rfl

theorem C6_witness :
    ((startFn ((startFn initState).1)).2
      = (if quiet (startFn initState).1 = true then [Ev.drain] else []))
    ∧ pauseFn initState
      = (if initState.rl.running == 0
          then ({ initState with rl := toggleRL initState.rl false }, [Ev.pauseResolved])
          else ({ initState with pauseWaiters := initState.pauseWaiters + 1 }, [])) :=
  ⟨((C6_idempotent_amended ((startFn initState).1)).1 (by decide)).2.2.2.2.2.2.2,
   (C6_idempotent_amended initState).2 rfl⟩

/-- C7: while `started = false` the dispatch loop starts no job (whatever
triggered it), completions of in-flight jobs proceed identically regardless
of `started` (so in-flight jobs run to completion), and a `pause()` promise
resolves only at a state where `running = 0`. -/
theorem C7_no_dispatch_while_paused :
    (∀ (opts : QyuOpts) (s : QyuState), s.started = false →
      processJob opts s = (s, []))
    ∧ (∀ (s : QyuState) (id : Nat) (out : Except Nat Nat) (b : Bool),
        (jobEnded { s with started := b } id out).2 = (jobEnded s id out).2
        ∧ (jobEnded { s with started := b } id out).1.rl.running
            = (jobEnded s id out).1.rl.running
        ∧ (jobEnded { s with started := b } id out).1.inflight
            = (jobEnded s id out).1.inflight
        ∧ (jobEnded { s with started := b } id out).1.jobs
            = (jobEnded s id out).1.jobs
        ∧ (jobEnded { s with started := b } id out).1.started = b)
    ∧ (∀ (opts : QyuOpts) (s : QyuState) (id : Nat) (out : Except Nat Nat),
        id ∈ s.inflight →
        ∃ evs s', QStep opts s (Act.complete id out) evs s')
    ∧ (∀ (opts : QyuOpts) (s : QyuState) (a : Act) (evs : List Ev) (s' : QyuState),
        QStep opts s a evs s' → Ev.pauseResolved ∈ evs → s'.rl.running = 0) := by
  refine ⟨?_, ?_, ?_, ?_⟩
  · intro opts s hs
    apply processJob_not_ready
    unfold readyToRunJobs
    rw [hs]
    rfl
  · intro s id out b
    obtain ⟨g1, g2, g3, g4, g5, g6, g7, g8⟩ :=
      jobEnded_fields { s with started := b } id out
    obtain ⟨f1, f2, f3, f4, f5, f6, f7, f8⟩ := jobEnded_fields s id out
    refine ⟨?_, ?_, ?_, ?_, ?_⟩
    · rw [jobEnded_snd, jobEnded_snd]
    · rw [g6, f6]
    · rw [g4, f4]
    · rw [g1, f1]
    · rw [g2]
  · intro opts s id out hin
    exact ⟨_, _, QStep.complete s id out hin⟩
  · intro opts s a evs s' hs hm
    cases hs with
    | push p => cases hm
    | start =>
      rw [startFn_snd] at hm
      by_cases hc : (s.jobs.isEmpty && s.rl.running == 0) = true
      · rw [if_pos hc] at hm
        simp at hm
      · rw [if_neg hc] at hm
        cases hm
    | pause =>
      rw [pauseFn_snd] at hm
      obtain ⟨f1, f2, f3, f4, f6, f7, f8⟩ := pauseFn_fst s
      by_cases hc : (s.rl.running == 0) = true
      · rw [f7]
        simpa using hc
      · rw [if_neg hc] at hm
        cases hm
    | dispatch =>
      by_cases hready : readyToRunJobs opts s = true
      · obtain ⟨j, hsel⟩ := readyToRunJobs_selectJob hready
        rw [processJob_ready hready hsel] at hm
        simp at hm
      · rw [processJob_not_ready (Bool.eq_false_iff.mpr hready)] at hm
        cases hm
    | complete id2 out hin =>
      rw [jobEnded_snd] at hm
      obtain ⟨f1, f2, f3, f4, f5, f6, f7, f8⟩ := jobEnded_fields s id2 out
      have hz : (s.rl.running - 1) == 0 := by
        rcases List.mem_append.mp hm with hm2 | hm2
        · rcases List.mem_append.mp hm2 with hm3 | hm3
          · cases out <;> simp [complEvs] at hm3
          · by_cases hc : (s.jobs.isEmpty && (s.rl.running - 1) == 0) = true
            · rw [if_pos hc] at hm3
              simp at hm3
            · rw [if_neg hc] at hm3
              cases hm3
        · by_cases hc2 : ((s.rl.running - 1) == 0 && s.pauseWaiters != 0) = true
          · rw [Bool.and_eq_true] at hc2
            exact hc2.1
          · rw [if_neg hc2] at hm2
            cases hm2
      rw [f6]
      simpa using hz
    | tick d hd => cases hm

theorem C7_witness :
    processJob opts0 initState = (initState, [])
    ∧ (pauseFn initState).1.rl.running = 0 :=
  ⟨C7_no_dispatch_while_paused.1 opts0 initState rfl,
   C7_no_dispatch_while_paused.2.2.2 opts0 initState Act.pause (pauseFn initState).2
     (pauseFn initState).1 (QStep.pause initState) (by decide)⟩

/-- C8: a failed job is accounted exactly like a successful one — the
post-completion state is identical for success and failure (same `running`
decrement, same sliding-window append, `processedSinceStart` — counted at
dispatch time — untouched), and over every reachable trace the number of
`done` plus `error` events equals the number of dispatched jobs minus those
still in flight, hence equals the number of dispatched jobs once nothing is
in flight. -/
theorem C8_failure_accounting :
    (∀ (s : QyuState) (id : Nat) (v e : Nat),
      (jobEnded s id (Except.ok v)).1 = (jobEnded s id (Except.error e)).1)
    ∧ (∀ (s : QyuState) (id : Nat) (out : Except Nat Nat),
        (jobEnded s id out).1.rl.running = s.rl.running - 1
        ∧ (jobEnded s id out).1.rl.recentJobs = cleanRecentJobs s.rl s.now ++ [s.now]
        ∧ (jobEnded s id out).1.rl.processedJobs = s.rl.processedJobs)
    ∧ (∀ (opts : QyuOpts) (s : QyuState), readyToRunJobs opts s = true →
        (processJob opts s).1.rl.processedJobs = s.rl.processedJobs + 1)
    ∧ (∀ (opts : QyuOpts) (s : QyuState) (T : List Ev), QReach opts s T →
        T.countP complEv + s.inflight.length = T.countP dispEv
        ∧ (s.inflight = [] → T.countP complEv = T.countP dispEv)) := by
  refine ⟨?_, ?_, ?_, ?_⟩
  · intro s id v e
    simp only [jobEnded]
    split
    · rfl
    · rfl
  · intro s id out
    obtain ⟨f1, f2, f3, f4, f5, f6, f7, f8⟩ := jobEnded_fields s id out
    exact ⟨f6, f7, f8⟩
  · intro opts s hready
    obtain ⟨j, hsel⟩ := readyToRunJobs_selectJob hready
    rw [processJob_ready hready hsel]
    rfl
  · intro opts s T h
    have hd := (qreach_inv h).disp_eq
    refine ⟨hd, ?_⟩
    intro hnil
    rw [hnil] at hd
    simpa using hd

theorem C8_witness :
    (processJob opts0 wS2).1.rl.processedJobs = wS2.rl.processedJobs + 1
    ∧ wT4.countP complEv = wT4.countP dispEv :=
  ⟨C8_failure_accounting.2.2.1 opts0 wS2 (by decide),
   (C8_failure_accounting.2.2.2 opts0 wS4 wT4 wReach4).2 (by decide)⟩
